import Mathlib

/-!
Verification development for the ServiceNow PDI monitor repository.

The JavaScript sources are shallowly embedded as executable Lean
definitions: strings become `List Char`, byte buffers become `List Nat`
(each entry below 256), thrown exceptions become `Except`/`Option`
error results, and the Node `crypto` HMAC primitive (external library
code, not part of the repository) is abstracted as a function
parameter.  Machine arithmetic is modelled on `Nat` with explicit
`% 2 ^ w` where the code relies on wrapping or width limits.
-/

namespace SnPdi

/-- The character set matched by the JavaScript regular-expression class
`\s` (used by `replace(/\s/g, '')` in `base32ToBuffer` and by `[^\s]` in
the URL-sanitising regex). -/
def jsSpace (c : Char) : Bool :=
  c.toNat = 0x20 || c.toNat = 0x09 || c.toNat = 0x0a || c.toNat = 0x0b ||
  c.toNat = 0x0c || c.toNat = 0x0d || c.toNat = 0xa0 || c.toNat = 0x1680 ||
  (0x2000 ≤ c.toNat && c.toNat ≤ 0x200a) || c.toNat = 0x2028 ||
  c.toNat = 0x2029 || c.toNat = 0x202f || c.toNat = 0x205f ||
  c.toNat = 0x3000 || c.toNat = 0xfeff

/-! ## totp-handler.js -/

/-- The base32 alphabet from `base32ToBuffer`
(`'ABCDEFGHIJKLMNOPQRSTUVWXYZ234567'`). -/
def base32Chars : List Char := "ABCDEFGHIJKLMNOPQRSTUVWXYZ234567".toList

/-- `base32Chars.indexOf(char)`, with `none` for the `-1` case. -/
def base32CharIndex (c : Char) : Option Nat :=
  base32Chars.indexOf? c

/-- Big-endian bit expansion of `n` to `w` bits: the JavaScript
`index.toString(2).padStart(5, '0')` step, generalised over the width. -/
def toBits : Nat → Nat → List Bool
  | 0, _ => []
  | w + 1, n => (n / 2 ^ w % 2 = 1) :: toBits w n

/-- Value of a big-endian bit list (`parseInt(bits, 2)`). -/
def bitsVal (bs : List Bool) : Nat :=
  bs.foldl (fun acc b => 2 * acc + (if b then 1 else 0)) 0

/-- The error values that `generateTOTP` can throw: the
`Invalid base32 character: <c>` exception from `base32ToBuffer`, and the
`RangeError` that `Buffer.writeUInt32BE` raises when the time counter
does not fit a 32-bit word (including the `Infinity` counter produced by
`period = 0`). -/
inductive TotpError
  | invalidSecret (c : Char)
  | rangeError
deriving DecidableEq, Repr

/-- Clean-up step of `base32ToBuffer`:
`base32.replace(/\s/g, '').toUpperCase()` (ASCII uppercasing). -/
def cleanSecret (secret : List Char) : List Char :=
  (secret.filter (fun c => !jsSpace c)).map Char.toUpper

/-- The `map`/`join` step of `base32ToBuffer`: 5 bits per character,
throwing on the first character outside the alphabet. -/
def base32Bits : List Char → Except TotpError (List Bool)
  | [] => .ok []
  | c :: cs =>
    match base32CharIndex c with
    | none => .error (.invalidSecret c)
    | some i => (base32Bits cs).map (fun bs => toBits 5 i ++ bs)

/-- Iteration core of the byte-grouping loop of `base32ToBuffer`; the
fuel argument bounds the number of loop iterations. -/
def bitsToBytesAux : Nat → List Bool → List Nat
  | 0, _ => []
  | fuel + 1, bs =>
    if 8 ≤ bs.length then bitsVal (bs.take 8) :: bitsToBytesAux fuel (bs.drop 8)
    else []

/-- The byte-grouping loop of `base32ToBuffer`: consecutive groups of 8
bits, discarding a trailing group shorter than 8 bits. -/
def bitsToBytes (bs : List Bool) : List Nat :=
  bitsToBytesAux bs.length bs

/-- `base32ToBuffer` from totp-handler.js: whitespace-stripping,
uppercasing, per-character 5-bit decoding (throwing `InvalidSecret` on a
character outside the alphabet) and regrouping into bytes. -/
def base32ToBuffer (secret : List Char) : Except TotpError (List Nat) :=
  (base32Bits (cleanSecret secret)).map bitsToBytes

/-- Iteration core of the decimal rendering; the fuel argument bounds
the number of divisions by 10. -/
def natDecAux : Nat → Nat → List Char
  | 0, _ => []
  | fuel + 1, n =>
    if n < 10 then [Nat.digitChar n]
    else natDecAux fuel (n / 10) ++ [Nat.digitChar (n % 10)]

/-- Decimal rendering of a natural number (`otp.toString()`). -/
def natDecimal (n : Nat) : List Char :=
  natDecAux (n + 1) n

/-- `str.padStart(width, '0')`. -/
def padStartZeros (width : Nat) (s : List Char) : List Char :=
  List.replicate (width - s.length) '0' ++ s

/-- The HOTP core of `generateTOTP`, given the already-decoded key and a
counter below `2 ^ 32`: HMAC over the 8-byte buffer written by the two
`writeUInt32BE` calls, dynamic truncation at the low nibble of the final
hash byte, top-bit mask on the first extracted byte, reduction modulo
`10 ^ digits` and zero left-padding.  The `hmac` parameter stands for
Node's `crypto.createHmac(algorithm, key).update(msg).digest()`. -/
def totpCore (hmac : List Nat → List Nat → List Nat) (key : List Nat)
    (digits counter : Nat) : List Char :=
  let counterBuffer : List Nat :=
    [0, 0, 0, 0,
     counter / 2 ^ 24 % 256, counter / 2 ^ 16 % 256,
     counter / 2 ^ 8 % 256, counter % 256]
  let hash := hmac key counterBuffer
  let offset := hash.getLastD 0 % 16
  let code :=
    (hash.getD offset 0 % 128) * 2 ^ 24 + (hash.getD (offset + 1) 0 % 256) * 2 ^ 16 +
    (hash.getD (offset + 2) 0 % 256) * 2 ^ 8 + hash.getD (offset + 3) 0 % 256
  let otp := code % 10 ^ digits
  padStartZeros digits (natDecimal otp)

/-- `generateTOTP` from totp-handler.js.  `timestamp` is in
milliseconds; `counter = Math.floor(timestamp / 1000 / period)`.
A zero period makes the JavaScript counter `Infinity` and a counter of
`2 ^ 32` or more is rejected by `Buffer.writeUInt32BE`; both surface as
`rangeError`. -/
def generateTOTP (hmac : List Nat → List Nat → List Nat) (secret : List Char)
    (period digits timestamp : Nat) : Except TotpError (List Char) :=
  match base32ToBuffer secret with
  | .error e => .error e
  | .ok key =>
    if period = 0 then .error .rangeError
    else
      let counter := timestamp / 1000 / period
      if counter < 2 ^ 32 then .ok (totpCore hmac key digits counter)
      else .error .rangeError

/-- The one-time-password computation described by the specification's
own words (RFC 6238 style), for comparison with `generateTOTP`.
Modelled from the spec: the counter is `floor(timestamp/1000/period)`
encoded as a full 8-byte big-endian buffer; the keyed hash of that
counter is truncated at the offset given by the low nibble of the
hash's final byte with the top bit of the first extracted byte masked;
the 31-bit result is reduced modulo `10 ^ digits`; the output is
left-padded with zeros to `digits` characters. -/
def rfc6238Spec (hmac : List Nat → List Nat → List Nat) (key : List Nat)
    (period digits timestamp : Nat) : List Char :=
  let counter := timestamp / 1000 / period
  let counterBytes : List Nat :=
    [counter / 2 ^ 56 % 256, counter / 2 ^ 48 % 256,
     counter / 2 ^ 40 % 256, counter / 2 ^ 32 % 256,
     counter / 2 ^ 24 % 256, counter / 2 ^ 16 % 256,
     counter / 2 ^ 8 % 256, counter % 256]
  let hash := hmac key counterBytes
  let offset := hash.getLastD 0 % 16
  let code :=
    (hash.getD offset 0 % 128) * 2 ^ 24 + (hash.getD (offset + 1) 0 % 256) * 2 ^ 16 +
    (hash.getD (offset + 2) 0 % 256) * 2 ^ 8 + hash.getD (offset + 3) 0 % 256
  padStartZeros digits (natDecimal (code % 10 ^ digits))

/-- A well-behaved HMAC oracle: digests are at least 19 bytes long
(SHA-1 gives 20, SHA-256 gives 32) and consist of bytes. -/
def HmacGood (hmac : List Nat → List Nat → List Nat) : Prop :=
  ∀ key msg, 19 ≤ (hmac key msg).length ∧ ∀ b ∈ hmac key msg, b < 256

/-- A fixed 20-byte digest, used as a concrete HMAC oracle in witnesses. -/
def constHmac : List Nat → List Nat → List Nat :=
  fun _ _ => [7, 7, 7, 7, 7, 7, 7, 7, 7, 7, 7, 7, 7, 7, 7, 7, 7, 7, 7, 7]

theorem constHmac_good : HmacGood constHmac := by
  intro key msg
  refine ⟨by norm_num [constHmac], ?_⟩
  intro b hb
  simp only [constHmac, List.mem_cons, List.not_mem_nil, or_false] at hb
  omega

theorem base32CharIndex_eq_none {c : Char} :
    base32CharIndex c = none ↔ c ∉ base32Chars := by
  rw [base32CharIndex, List.indexOf?_eq_none_iff]
  constructor
  · intro h hc
    exact h c hc (by simp)
  · intro h x hx hxc
    exact h ((eq_of_beq hxc) ▸ hx)

theorem base32Bits_err (cs : List Char) (hc : ∃ c ∈ cs, c ∉ base32Chars) :
    ∃ c, c ∈ cs ∧ c ∉ base32Chars ∧
      base32Bits cs = .error (.invalidSecret c) := by
  induction cs with
  | nil => simp at hc
  | cons a as ih =>
    by_cases ha : a ∈ base32Chars
    · obtain ⟨c, hmem, hnotin⟩ := hc
      rcases List.mem_cons.mp hmem with h | h
      · exact absurd (h ▸ ha) hnotin
      · obtain ⟨c, hmem', hnotin', herr⟩ := ih ⟨c, h, hnotin⟩
        refine ⟨c, List.mem_cons_of_mem _ hmem', hnotin', ?_⟩
        have hia : base32CharIndex a ≠ none := by
          simpa [base32CharIndex_eq_none] using ha
        rcases h' : base32CharIndex a with _ | i
        · exact absurd h' hia
        · simp [base32Bits, h', herr, Except.map]
    · refine ⟨a, List.mem_cons_self a as, ha, ?_⟩
      have : base32CharIndex a = none := base32CharIndex_eq_none.mpr ha
      simp [base32Bits, this]

theorem natDecAux_length_le :
    ∀ fuel n d, n < fuel → 0 < d → n < 10 ^ d → (natDecAux fuel n).length ≤ d := by
  intro fuel
  induction fuel with
  | zero => intro n d h _ _; omega
  | succ fuel ih =>
    intro n d hfuel hd hn
    simp only [natDecAux]
    split
    · simpa using hd
    · rename_i h10
      have h10' : 10 ≤ n := by omega
      have hd2 : 2 ≤ d := by
        by_contra hlt
        have hone : d = 1 := by omega
        subst hone
        simp at hn
        omega
      have hrec : (natDecAux fuel (n / 10)).length ≤ d - 1 := by
        apply ih
        · have := Nat.div_lt_self (by omega : 0 < n) (by norm_num : 1 < 10)
          omega
        · omega
        · rw [Nat.div_lt_iff_lt_mul (by norm_num)]
          calc n < 10 ^ d := hn
          _ = 10 ^ (d - 1) * 10 := by
            rw [← pow_succ]
            congr 1
            omega
      simp only [List.length_append, List.length_cons, List.length_nil]
      omega

theorem natDecimal_length_le {n d : Nat} (hd : 0 < d) (hn : n < 10 ^ d) :
    (natDecimal n).length ≤ d :=
  natDecAux_length_le (n + 1) n d (by omega) hd hn

theorem padStartZeros_length {w : Nat} {s : List Char} (h : s.length ≤ w) :
    (padStartZeros w s).length = w := by
  simp [padStartZeros]
  omega

theorem totpCore_length (hmac : List Nat → List Nat → List Nat)
    (key : List Nat) (digits counter : Nat) (hd : 0 < digits) :
    (totpCore hmac key digits counter).length = digits := by
  unfold totpCore
  exact padStartZeros_length
    (natDecimal_length_le hd (Nat.mod_lt _ (Nat.pos_pow_of_pos _ (by norm_num))))

theorem rfc6238Spec_length (hmac : List Nat → List Nat → List Nat)
    (key : List Nat) (period digits timestamp : Nat) (hd : 0 < digits) :
    (rfc6238Spec hmac key period digits timestamp).length = digits := by
  unfold rfc6238Spec
  exact padStartZeros_length
    (natDecimal_length_le hd (Nat.mod_lt _ (Nat.pos_pow_of_pos _ (by norm_num))))

/-- Claim C1 (amended): for every secret that decodes, every positive
period, every positive digit count, every HMAC algorithm, and every
timestamp whose counter `floor(timestamp/1000/period)` fits 32 bits,
`generateTOTP` returns exactly the RFC 6238 value described by the
specification (8-byte big-endian counter, keyed hash, dynamic
truncation at the low nibble of the final hash byte, top-bit mask,
reduction modulo `10 ^ digits`, zero-padding to exactly `digits`
characters). -/
theorem generateTOTP_rfc6238 (hmac : List Nat → List Nat → List Nat)
    (secret : List Char) (key : List Nat) (period digits timestamp : Nat)
    (_hgood : HmacGood hmac) (hkey : base32ToBuffer secret = .ok key)
    (hp : 0 < period) (hctr : timestamp / 1000 / period < 2 ^ 32)
    (hd : 0 < digits) :
    generateTOTP hmac secret period digits timestamp =
      .ok (rfc6238Spec hmac key period digits timestamp) ∧
    (rfc6238Spec hmac key period digits timestamp).length = digits := by
  constructor
  · have hcore : totpCore hmac key digits (timestamp / 1000 / period) =
        rfc6238Spec hmac key period digits timestamp := by
      have h56 : timestamp / 1000 / period / 2 ^ 56 = 0 :=
        Nat.div_eq_of_lt (lt_of_lt_of_le hctr (by norm_num))
      have h48 : timestamp / 1000 / period / 2 ^ 48 = 0 :=
        Nat.div_eq_of_lt (lt_of_lt_of_le hctr (by norm_num))
      have h40 : timestamp / 1000 / period / 2 ^ 40 = 0 :=
        Nat.div_eq_of_lt (lt_of_lt_of_le hctr (by norm_num))
      have h32 : timestamp / 1000 / period / 2 ^ 32 = 0 :=
        Nat.div_eq_of_lt hctr
      unfold totpCore rfc6238Spec
      simp only [h56, h48, h40, h32, Nat.zero_mod]
    rw [generateTOTP, hkey]
    simp only [Nat.pos_iff_ne_zero.mp hp, if_false, if_pos hctr, hcore]
  · exact rfc6238Spec_length hmac key period digits timestamp hd

theorem generateTOTP_rfc6238_witness :
    generateTOTP constHmac "JBSWY3DPEHPK3PXP".toList 30 6 59000 =
      .ok (rfc6238Spec constHmac
        [72, 101, 108, 108, 111, 33, 222, 173, 190, 239] 30 6 59000) ∧
    (rfc6238Spec constHmac
      [72, 101, 108, 108, 111, 33, 222, 173, 190, 239] 30 6 59000).length = 6 :=
  generateTOTP_rfc6238 constHmac "JBSWY3DPEHPK3PXP".toList
    [72, 101, 108, 108, 111, 33, 222, 173, 190, 239] 30 6 59000
    constHmac_good (by rfl) (by decide) (by decide) (by decide)

/-- Claim C1 as stated is false at concrete inputs: a timestamp whose
counter is `2 ^ 32` makes `generateTOTP` throw a `RangeError` (from
`writeUInt32BE`) while the RFC 6238 computation still yields a 6-digit
code; a zero period throws likewise; and with `digits = 0` the output
is the 1-character string `"0"`, not a 0-character string. -/
theorem generateTOTP_rfc6238_counterexample :
    generateTOTP constHmac "JBSWY3DPEHPK3PXP".toList 1 6 4294967296000 =
      .error .rangeError ∧
    (rfc6238Spec constHmac
      [72, 101, 108, 108, 111, 33, 222, 173, 190, 239] 1 6 4294967296000).length = 6 ∧
    generateTOTP constHmac "JBSWY3DPEHPK3PXP".toList 0 6 59000 =
      .error .rangeError ∧
    generateTOTP constHmac "JBSWY3DPEHPK3PXP".toList 30 0 0 = .ok ['0'] :=
  ⟨by rfl, by decide, by rfl, by rfl⟩

/-- Claim C4: a secret that, after whitespace removal and uppercasing,
contains a character outside the 32-symbol alphabet `A-Z2-7` makes
`generateTOTP` fail with the `InvalidSecret` error and return no code. -/
theorem generateTOTP_invalidSecret (hmac : List Nat → List Nat → List Nat)
    (secret : List Char) (period digits timestamp : Nat)
    (hc : ∃ c ∈ cleanSecret secret, c ∉ base32Chars) :
    ∃ c, c ∈ cleanSecret secret ∧ c ∉ base32Chars ∧
      generateTOTP hmac secret period digits timestamp =
        .error (.invalidSecret c) := by
  obtain ⟨c, hmem, hnotin, herr⟩ := base32Bits_err _ hc
  refine ⟨c, hmem, hnotin, ?_⟩
  rw [generateTOTP, base32ToBuffer, herr]
  rfl

theorem generateTOTP_invalidSecret_witness :
    ∃ c, c ∈ cleanSecret "INVALID1".toList ∧ c ∉ base32Chars ∧
      generateTOTP constHmac "INVALID1".toList 30 6 0 =
        .error (.invalidSecret c) :=
  generateTOTP_invalidSecret constHmac "INVALID1".toList 30 6 0
    ⟨'1', by decide, by decide⟩

/-- Claim C10: the empty secret, or a secret of whitespace only,
is not rejected: base32 decoding yields the empty key, the keyed hash
is computed over that empty key, and a zero-padded code of exactly
`digits` characters is returned. -/
theorem generateTOTP_emptySecret (hmac : List Nat → List Nat → List Nat)
    (secret : List Char) (period digits timestamp : Nat)
    (hws : ∀ c ∈ secret, jsSpace c) (_hgood : HmacGood hmac) (hp : 0 < period)
    (hctr : timestamp / 1000 / period < 2 ^ 32) (hd : 0 < digits) :
    generateTOTP hmac secret period digits timestamp =
      .ok (totpCore hmac [] digits (timestamp / 1000 / period)) ∧
    (totpCore hmac [] digits (timestamp / 1000 / period)).length = digits := by
  have hclean : cleanSecret secret = [] := by
    have : secret.filter (fun c => !jsSpace c) = [] := by
      rw [List.filter_eq_nil_iff]
      intro a ha
      simp [hws a ha]
    simp [cleanSecret, this]
  constructor
  · rw [generateTOTP, base32ToBuffer, hclean]
    have h0 : bitsToBytes [] = [] := rfl
    simp only [base32Bits, Except.map, h0]
    simp only [Nat.pos_iff_ne_zero.mp hp, if_false, if_pos hctr]
  · exact totpCore_length hmac [] digits _ hd

theorem generateTOTP_emptySecret_witness :
    generateTOTP constHmac [] 30 6 59000 =
      .ok (totpCore constHmac [] 6 (59000 / 1000 / 30)) ∧
    (totpCore constHmac [] 6 (59000 / 1000 / 30)).length = 6 :=
  generateTOTP_emptySecret constHmac [] 30 6 59000 (by simp)
    constHmac_good (by decide) (by decide) (by decide)

/-! ## Per-target orchestration loop

The `main` functions of scrape-stats.js and developer-login(-debug).js
run, for each configured target in order, `init`, `login` and the
per-target flow (`scrapeStats` + HTML write, or `navigateToInstances`)
inside `try`, record a success or a sanitized failure, and call
`close` in `finally`.  A target's behaviour in a given run is abstracted
as the first stage that throws (if any) together with its error
message. -/

/-- One configured target together with the outcome of each stage of
its iteration in this run: `none` means the stage completes, `some e`
means it throws with message `e`.  A later stage's entry is irrelevant
when an earlier stage throws. -/
structure TargetRun where
  name : List Char
  initRes : Option (List Char)
  loginRes : Option (List Char)
  flowRes : Option (List Char)
deriving DecidableEq, Repr

/-- Calls observable during one loop iteration. -/
inductive OrchEv
  | callInit
  | callLogin
  | callFlow
  | callClose
deriving DecidableEq, Repr

/-- One iteration of the orchestration loop body: stages run in order
inside `try` until the first throw, and `close` always runs in
`finally`.  Returns the iteration's outcome and the calls it made. -/
def runTarget (t : TargetRun) : Except (List Char) Unit × List OrchEv :=
  let (res, evs) :=
    match t.initRes with
    | some e => (Except.error e, [OrchEv.callInit])
    | none =>
      match t.loginRes with
      | some e => (Except.error e, [OrchEv.callInit, OrchEv.callLogin])
      | none =>
        match t.flowRes with
        | some e =>
          (Except.error e, [OrchEv.callInit, OrchEv.callLogin, OrchEv.callFlow])
        | none =>
          (Except.ok (), [OrchEv.callInit, OrchEv.callLogin, OrchEv.callFlow])
  (res, evs ++ [OrchEv.callClose])

/-- The `results` record accumulated by `main`. -/
structure RunSummary where
  total : Nat
  successful : Nat
  failed : Nat
  failures : List (List Char × List Char)
deriving DecidableEq, Repr

/-- The catch branch's failure record for one target (`none` when the
target succeeded): the target's name with the sanitized error. -/
def targetFailure (san : List Char → List Char) (t : TargetRun) :
    Option (List Char × List Char) :=
  match (runTarget t).1 with
  | .error e => some (t.name, san e)
  | .ok _ => none

/-- The loop body of `main`: bump `successful` on success, else bump
`failed` and push the sanitized failure record; either way the
iteration's calls (ending in `close`) are appended to the trace. -/
def orchLoopStep (san : List Char → List Char)
    (acc : RunSummary × List OrchEv) (t : TargetRun) :
    RunSummary × List OrchEv :=
  match (runTarget t).1 with
  | .ok _ =>
    ({ acc.1 with successful := acc.1.successful + 1 },
     acc.2 ++ (runTarget t).2)
  | .error e =>
    ({ acc.1 with
        failed := acc.1.failed + 1,
        failures := acc.1.failures ++ [(t.name, san e)] },
     acc.2 ++ (runTarget t).2)

/-- The whole orchestration loop of `main`, starting from
`{total: targets.length, successful: 0, failed: 0, failures: []}`. -/
def runAll (san : List Char → List Char) (targets : List TargetRun) :
    RunSummary × List OrchEv :=
  targets.foldl (orchLoopStep san)
    ({ total := targets.length, successful := 0, failed := 0, failures := [] }, [])

/-- The exit-code decision at the end of `main`: `process.exit(1)` when
all targets failed, else `process.exit(2)` when failures exceed
successes, else the process ends normally with code 0. -/
def exitCode (r : RunSummary) : Nat :=
  if r.failed = r.total ∧ 0 < r.total then 1
  else if r.successful < r.failed ∧ 0 < r.total then 2
  else 0

/-- Whether a target's iteration completes without a throw. -/
def targetOk (t : TargetRun) : Bool :=
  match (runTarget t).1 with
  | .ok _ => true
  | .error _ => false

theorem runAll_go (san : List Char → List Char) (ts : List TargetRun)
    (s : RunSummary) (evs : List OrchEv) :
    ts.foldl (orchLoopStep san) (s, evs) =
      ({ total := s.total,
         successful := s.successful + (ts.filter (fun t => targetOk t)).length,
         failed := s.failed + (ts.filter (fun t => !targetOk t)).length,
         failures := s.failures ++ ts.filterMap (targetFailure san) },
       evs ++ ts.flatMap (fun t => (runTarget t).2)) := by
  induction ts generalizing s evs with
  | nil => simp
  | cons t ts ih =>
    have hbind : (t :: ts).flatMap (fun t => (runTarget t).2) =
        (runTarget t).2 ++ ts.flatMap (fun t => (runTarget t).2) :=
      List.flatMap_cons ..
    rcases h : (runTarget t).1 with e | u
    · have hstep : orchLoopStep san (s, evs) t =
          ({ s with
              failed := s.failed + 1,
              failures := s.failures ++ [(t.name, san e)] },
           evs ++ (runTarget t).2) := by
        simp [orchLoopStep, h]
      have hfilterOk : (t :: ts).filter (fun t => targetOk t) =
          ts.filter (fun t => targetOk t) := by
        simp [List.filter_cons, targetOk, h]
      have hfilterBad : ((t :: ts).filter (fun t => !targetOk t)).length =
          (ts.filter (fun t => !targetOk t)).length + 1 := by
        simp [List.filter_cons, targetOk, h]
      have hfm : (t :: ts).filterMap (targetFailure san) =
          (t.name, san e) :: ts.filterMap (targetFailure san) := by
        simp [List.filterMap_cons, targetFailure, h]
      rw [List.foldl_cons, hstep, ih, Prod.mk.injEq]
      constructor
      · rw [RunSummary.mk.injEq]
        refine ⟨rfl, ?_, ?_, ?_⟩
        · rw [hfilterOk]
        · rw [hfilterBad]; dsimp only; omega
        · rw [hfm]; simp
      · rw [hbind, List.append_assoc]
    · have hstep : orchLoopStep san (s, evs) t =
          ({ s with successful := s.successful + 1 },
           evs ++ (runTarget t).2) := by
        simp [orchLoopStep, h]
      have hfilterOk : ((t :: ts).filter (fun t => targetOk t)).length =
          (ts.filter (fun t => targetOk t)).length + 1 := by
        simp [List.filter_cons, targetOk, h]
      have hfilterBad : (t :: ts).filter (fun t => !targetOk t) =
          ts.filter (fun t => !targetOk t) := by
        simp [List.filter_cons, targetOk, h]
      have hfm : (t :: ts).filterMap (targetFailure san) =
          ts.filterMap (targetFailure san) := by
        simp [List.filterMap_cons, targetFailure, h]
      rw [List.foldl_cons, hstep, ih, Prod.mk.injEq]
      constructor
      · rw [RunSummary.mk.injEq]
        refine ⟨rfl, ?_, ?_, ?_⟩
        · rw [hfilterOk]; dsimp only; omega
        · rw [hfilterBad]
        · rw [hfm]
      · rw [hbind, List.append_assoc]

theorem filterMap_targetFailure_length (san : List Char → List Char)
    (ts : List TargetRun) :
    (ts.filterMap (targetFailure san)).length =
      (ts.filter (fun t => !targetOk t)).length := by
  induction ts with
  | nil => rfl
  | cons t ts ih =>
    rcases h : (runTarget t).1 with e | u <;>
      simp [targetFailure, targetOk, List.filter_cons, h, ih]

theorem length_filter_targetOk (ts : List TargetRun) :
    (ts.filter (fun t => targetOk t)).length +
      (ts.filter (fun t => !targetOk t)).length = ts.length := by
  induction ts with
  | nil => rfl
  | cons t ts ih =>
    cases h : targetOk t <;> simp [List.filter_cons, h] <;> omega

/-- Claim C3: the orchestration loop keeps going past a throwing
target: it visits every target in order (the call trace is the ordered
concatenation of the per-target call blocks), records exactly one
failure entry — the target's name with the sanitized error — per failed
target, and at completion `successful + failed = total = number of
targets`.  With 3 targets of which exactly the second throws, the
summary is `total = 3, successful = 2, failed = 1` with the single
failure entry naming target 2. -/
theorem runAll_summary :
    (∀ (san : List Char → List Char) (targets : List TargetRun),
      (runAll san targets).1.total = targets.length ∧
      (runAll san targets).1.successful + (runAll san targets).1.failed =
        targets.length ∧
      (runAll san targets).1.failures = targets.filterMap (targetFailure san) ∧
      (runAll san targets).1.failures.length = (runAll san targets).1.failed ∧
      (runAll san targets).2 = targets.flatMap (fun t => (runTarget t).2)) ∧
    (runAll id
        [⟨"target1".toList, none, none, none⟩,
         ⟨"target2".toList, none, some "boom".toList, none⟩,
         ⟨"target3".toList, none, none, none⟩]).1 =
      ⟨3, 2, 1, [("target2".toList, "boom".toList)]⟩ := by
  constructor
  · intro san targets
    have h := runAll_go san targets
      { total := targets.length, successful := 0, failed := 0, failures := [] } []
    rw [runAll, h]
    refine ⟨rfl, ?_, by simp, ?_, by simp⟩
    · have := length_filter_targetOk targets
      simp only [Nat.zero_add]
      omega
    · simp [filterMap_targetFailure_length san targets]
  · rfl

theorem exitCode_char (r : RunSummary)
    (hsum : r.successful + r.failed = r.total) (ht : 0 < r.total) :
    (exitCode r = 1 ↔ r.successful = 0) ∧
    (exitCode r = 2 ↔ 0 < r.successful ∧ r.successful < r.failed) ∧
    (exitCode r = 0 ↔ r.total ≤ 2 * r.successful) := by
  unfold exitCode
  by_cases h1 : r.failed = r.total
  · rw [if_pos ⟨h1, ht⟩]
    exact ⟨⟨fun _ => by omega, fun _ => rfl⟩,
      ⟨fun h => by omega, fun h => by omega⟩,
      ⟨fun h => by omega, fun h => by omega⟩⟩
  · rw [if_neg (fun hc => h1 hc.1)]
    by_cases h2 : r.successful < r.failed
    · rw [if_pos ⟨h2, ht⟩]
      exact ⟨⟨fun h => by omega, fun h => by omega⟩,
        ⟨fun _ => ⟨by omega, h2⟩, fun _ => rfl⟩,
        ⟨fun h => by omega, fun h => by omega⟩⟩
    · rw [if_neg (fun hc => h2 hc.1)]
      exact ⟨⟨fun h => by omega, fun h => by omega⟩,
        ⟨fun h => by omega, fun h => by omega⟩,
        ⟨fun _ => by omega, fun _ => rfl⟩⟩

/-- Claim C2 (exit-code contract), tied to the loop's summary: for a
completed run over a nonempty target list, the exit code is 1 exactly
when no target succeeded, 2 exactly when at least one succeeded but
failures exceed successes, and 0 exactly when at least half of the
targets succeeded. -/
theorem runAll_exitCode (san : List Char → List Char)
    (targets : List TargetRun) (hne : targets ≠ []) :
    (exitCode (runAll san targets).1 = 1 ↔
      (runAll san targets).1.successful = 0) ∧
    (exitCode (runAll san targets).1 = 2 ↔
      0 < (runAll san targets).1.successful ∧
      (runAll san targets).1.successful < (runAll san targets).1.failed) ∧
    (exitCode (runAll san targets).1 = 0 ↔
      targets.length ≤ 2 * (runAll san targets).1.successful) := by
  have h := runAll_go san targets
    { total := targets.length, successful := 0, failed := 0, failures := [] } []
  have htot : (runAll san targets).1.total = targets.length := by
    rw [runAll, h]
  have hsum : (runAll san targets).1.successful + (runAll san targets).1.failed =
      (runAll san targets).1.total := by
    rw [runAll, h]
    dsimp only
    have := length_filter_targetOk targets
    omega
  have ht : 0 < (runAll san targets).1.total := by
    rw [htot]
    exact List.length_pos.mpr hne
  have hc := exitCode_char _ hsum ht
  refine ⟨hc.1, hc.2.1, ?_⟩
  rw [← htot]
  exact hc.2.2

theorem runAll_exitCode_witness :
    exitCode (runAll id
      [⟨"a".toList, none, none, none⟩, ⟨"b".toList, none, none, none⟩,
       ⟨"c".toList, none, none, none⟩, ⟨"d".toList, none, none, none⟩]).1 = 0 ∧
    exitCode (runAll id
      [⟨"a".toList, some "e".toList, none, none⟩,
       ⟨"b".toList, some "e".toList, none, none⟩,
       ⟨"c".toList, some "e".toList, none, none⟩,
       ⟨"d".toList, some "e".toList, none, none⟩]).1 = 1 ∧
    exitCode (runAll id
      [⟨"a".toList, none, none, none⟩,
       ⟨"b".toList, some "e".toList, none, none⟩,
       ⟨"c".toList, some "e".toList, none, none⟩,
       ⟨"d".toList, some "e".toList, none, none⟩]).1 = 2 := by
  refine ⟨?_, ?_, ?_⟩
  · exact (runAll_exitCode id _ (by simp)).2.2.mpr (by decide)
  · exact (runAll_exitCode id _ (by simp)).1.mpr (by decide)
  · exact (runAll_exitCode id _ (by simp)).2.1.mpr (by decide)

theorem runTarget_close_one (t : TargetRun) :
    (runTarget t).2.count OrchEv.callClose = 1 ∧
    (runTarget t).2.getLast? = some OrchEv.callClose := by
  rcases t with ⟨name, ir, lr, fr⟩
  cases ir <;> cases lr <;> cases fr <;> exact ⟨rfl, rfl⟩

/-- Claim C9: in every run, the call trace is the ordered concatenation
of the per-target blocks, and every target's block contains exactly one
`close` call, as its final call — so the session is closed exactly once
before the loop moves on, whichever stage threw (or none). -/
theorem runAll_close (san : List Char → List Char)
    (targets : List TargetRun) :
    (runAll san targets).2 = targets.flatMap (fun t => (runTarget t).2) ∧
    ∀ t ∈ targets,
      (runTarget t).2.count OrchEv.callClose = 1 ∧
      (runTarget t).2.getLast? = some OrchEv.callClose := by
  constructor
  · rw [runAll, runAll_go]
    simp
  · intro t _
    exact runTarget_close_one t

theorem runAll_close_witness :
    (runTarget ⟨"a".toList, none, some "x".toList, none⟩).2.count
      OrchEv.callClose = 1 ∧
    (runTarget ⟨"a".toList, none, some "x".toList, none⟩).2.getLast? =
      some OrchEv.callClose :=
  (runAll_close id [⟨"a".toList, none, some "x".toList, none⟩]).2 _
    (List.mem_singleton_self _)

/-! ## developer-login-debug.js: resilient page-interaction helpers -/

/-- ASCII lowercasing of one character (`toLowerCase()`). -/
def lcChar (c : Char) : Char := c.toLower

/-- `haystack.includes(needle)` on strings. -/
def containsSub (needle hay : List Char) : Bool :=
  hay.tails.any (fun t => needle.isPrefixOf t)

/-- `findFirstVisibleSelector`: try each selector in order, returning
the first that becomes visible within its per-candidate timeout, or
`null` when none does.  The success of
`waitForSelector(sel, {visible: true, timeout})` is abstracted as the
predicate `vis`. -/
def findFirstVisibleSelector (vis : List Char → Bool) :
    List (List Char) → Option (List Char)
  | [] => none
  | s :: rest =>
    if vis s then some s else findFirstVisibleSelector vis rest

/-- Claim C7: the selector fallback search returns the first candidate
in list order that becomes visible, and `none` when none does; in
particular with candidates 1 and 2 absent and candidates 3 and 4 both
present, it returns candidate 3, not the later candidate 4. -/
theorem findFirstVisibleSelector_spec :
    (∀ (vis : List Char → Bool) (pre : List (List Char)) (s : List Char)
        (post : List (List Char)),
      (∀ x ∈ pre, vis x = false) → vis s = true →
      findFirstVisibleSelector vis (pre ++ s :: post) = some s) ∧
    (∀ (vis : List Char → Bool) (sels : List (List Char)),
      (∀ x ∈ sels, vis x = false) → findFirstVisibleSelector vis sels = none) ∧
    findFirstVisibleSelector
      (fun x => x == "sel3".toList || x == "sel4".toList)
      ["sel1".toList, "sel2".toList, "sel3".toList, "sel4".toList] =
      some "sel3".toList := by
  refine ⟨?_, ?_, by rfl⟩
  · intro vis pre s post hpre hs
    induction pre with
    | nil => simp [findFirstVisibleSelector, hs]
    | cons a as ih =>
      have ha : vis a = false := hpre a (by simp)
      rw [List.cons_append, findFirstVisibleSelector, ha]
      exact ih (fun x hx => hpre x (List.mem_cons_of_mem _ hx))
  · intro vis sels h
    induction sels with
    | nil => rfl
    | cons a as ih =>
      rw [findFirstVisibleSelector, h a (List.mem_cons_self _ _)]
      exact ih (fun x hx => h x (List.mem_cons_of_mem _ hx))

theorem findFirstVisibleSelector_witness :
    findFirstVisibleSelector (fun x => x == "input#username".toList)
      ["input[type=email]".toList, "input#username".toList] =
      some "input#username".toList :=
  findFirstVisibleSelector_spec.1 (fun x => x == "input#username".toList)
    ["input[type=email]".toList] "input#username".toList [] (by decide)
    (by decide)

/-- What the handler can observe about the page-state `evaluate` that
`navigateWithRetries` runs after an aborted/timed-out `goto` whose
current host matches the target: the evaluated
`readyState === 'complete' && !isRedirecting` value, a throw whose
message marks a destroyed/missing execution context, or any other
throw. -/
inductive EvalRes
  | ok (valid : Bool)
  | ctxDestroyed
  | otherErr
deriving DecidableEq, Repr

/-- One `page.goto` attempt: the error it rejects with (`none` = the
navigation resolved), the hostname of `page.url()` afterwards (`none` =
not parseable as a URL), and the page-state evaluation result. -/
structure NavAttempt where
  err : Option (List Char)
  currentHost : Option (List Char)
  evalRes : EvalRes
deriving DecidableEq, Repr

/-- The error test of `navigateWithRetries`:
`message.includes('net::ERR_ABORTED') ||
 message.toLowerCase().includes('timeout')`. -/
def isAbortOrTimeout (msg : List Char) : Bool :=
  containsSub "net::ERR_ABORTED".toList msg ||
  containsSub "timeout".toList (msg.map lcChar)

/-- The recovery test of `navigateWithRetries`: the current hostname
equals the target hostname, and the page validates as settled — either
the evaluate returns `true` (readyState complete, no redirecting text)
or it throws with a destroyed-context message (in which case the
handler assumes success). -/
def navRecovered (targetHost : Option (List Char)) (a : NavAttempt) : Bool :=
  (match targetHost, a.currentHost with
   | some th, some ch => ch == th
   | _, _ => false) &&
  (match a.evalRes with
   | .ok valid => valid
   | .ctxDestroyed => true
   | .otherErr => false)

/-- An attempt on which `navigateWithRetries` neither returns nor
throws immediately: an aborted/timed-out `goto` without recovery. -/
def navHardFail (targetHost : Option (List Char)) (a : NavAttempt) : Bool :=
  match a.err with
  | some msg => isAbortOrTimeout msg && !navRecovered targetHost a
  | none => false

/-- `navigateWithRetries` over the successive attempt outcomes the
world supplies (the list has one entry per loop iteration, so
`retries + 1` entries for the configured bound).  Returns the overall
outcome, the number of `goto` calls made, and the list of backoff
delays (`wait(2000)`) performed. -/
def navigateWithRetries (targetHost : Option (List Char)) :
    List NavAttempt → Except (List Char) Unit × Nat × List Nat
  | [] => (.error [], 0, [])
  | a :: rest =>
    match a.err with
    | none => (.ok (), 1, [])
    | some msg =>
      if isAbortOrTimeout msg then
        if navRecovered targetHost a then (.ok (), 1, [])
        else
          match rest with
          | [] => (.error msg, 1, [])
          | b :: bs =>
            let r := navigateWithRetries targetHost (b :: bs)
            (r.1, r.2.1 + 1, 2000 :: r.2.2)
      else (.error msg, 1, [])

/-- Claim C5: when a `goto` rejects with an aborted-load or timeout
error but the browser's current hostname equals the target hostname
and the page is settled, `navigateWithRetries` returns success at once
instead of propagating; when every attempt fails that way without
recovery (host mismatch, or matching host but unsettled page), it
performs every configured attempt with a fixed 2000 ms backoff between
attempts and then propagates the final attempt's error. -/
theorem navigateWithRetries_spec :
    (∀ (th : List Char) (a : NavAttempt) (rest : List NavAttempt)
        (msg ch : List Char),
      a.err = some msg → isAbortOrTimeout msg = true →
      a.currentHost = some ch → ch = th → a.evalRes = .ok true →
      navigateWithRetries (some th) (a :: rest) = (.ok (), 1, [])) ∧
    (∀ (th : Option (List Char)) (attempts : List NavAttempt)
        (alast : NavAttempt),
      (∀ a ∈ attempts, navHardFail th a = true) →
      attempts.getLast? = some alast →
      ∃ msg, alast.err = some msg ∧
        navigateWithRetries th attempts =
          (.error msg, attempts.length,
           List.replicate (attempts.length - 1) 2000)) := by
  constructor
  · intro th a rest msg ch herr habort hch heq heval
    have hrec : navRecovered (some th) a = true := by
      simp [navRecovered, hch, heval, heq]
    rw [navigateWithRetries, herr]
    simp [habort, hrec]
  · intro th attempts
    induction attempts with
    | nil => intro alast _ h; simp at h
    | cons a rest ih =>
      intro alast hall hlast
      have hfail : navHardFail th a = true := hall a (List.mem_cons_self _ _)
      rw [navHardFail] at hfail
      rcases herr : a.err with _ | msg
      · rw [herr] at hfail; simp at hfail
      · rw [herr] at hfail
        have habort : isAbortOrTimeout msg = true := by
          rcases Bool.and_eq_true_iff.mp hfail with ⟨h1, -⟩
          exact h1
        have hnorec : navRecovered th a = false := by
          rcases Bool.and_eq_true_iff.mp hfail with ⟨-, h2⟩
          simpa using h2
        cases rest with
        | nil =>
          have heq : a = alast := by simpa using hlast
          subst heq
          refine ⟨msg, herr, ?_⟩
          rw [navigateWithRetries, herr]
          simp [habort, hnorec]
        | cons b bs =>
          have hlast' : (b :: bs).getLast? = some alast := by
            rw [List.getLast?_cons_cons] at hlast
            exact hlast
          obtain ⟨msg', hmsg', hres⟩ :=
            ih alast (fun x hx => hall x (List.mem_cons_of_mem _ hx)) hlast'
          refine ⟨msg', hmsg', ?_⟩
          rw [navigateWithRetries, herr]
          simp only [habort, hnorec, if_true, if_false, Bool.false_eq_true,
            hres]
          simp [List.replicate_succ]

theorem navigateWithRetries_witness :
    (navigateWithRetries (some "signon.service-now.com".toList)
      [⟨some "net::ERR_ABORTED at x".toList,
        some "signon.service-now.com".toList, .ok true⟩] = (.ok (), 1, [])) ∧
    (navigateWithRetries (some "signon.service-now.com".toList)
      [⟨some "Navigation timeout of 45000 ms exceeded".toList,
        some "other.example.com".toList, .ok true⟩,
       ⟨some "Navigation timeout of 45000 ms exceeded".toList,
        some "other.example.com".toList, .ok true⟩,
       ⟨some "net::ERR_ABORTED at y".toList,
        some "other.example.com".toList, .ok true⟩] =
      (.error "net::ERR_ABORTED at y".toList, 3, [2000, 2000])) := by
  constructor
  · exact navigateWithRetries_spec.1 _ _ _ _ _ rfl (by decide) rfl rfl rfl
  · obtain ⟨msg, hmsg, hres⟩ := navigateWithRetries_spec.2
      (some "signon.service-now.com".toList)
      [⟨some "Navigation timeout of 45000 ms exceeded".toList,
        some "other.example.com".toList, .ok true⟩,
       ⟨some "Navigation timeout of 45000 ms exceeded".toList,
        some "other.example.com".toList, .ok true⟩,
       ⟨some "net::ERR_ABORTED at y".toList,
        some "other.example.com".toList, .ok true⟩]
      ⟨some "net::ERR_ABORTED at y".toList,
        some "other.example.com".toList, .ok true⟩
      (by decide) (by rfl)
    have hm : msg = "net::ERR_ABORTED at y".toList := by
      have h' := hmsg
      simp only [Option.some.injEq] at h'
      exact h'.symm
    rw [hm] at hres
    simpa [List.replicate] using hres

/-! ## handle2FA: method-selection step (identical in both login scripts)

When the page text demands a verification-method choice, the handler
runs a `page.evaluate` that (1) looks for a section whose text contains
both `'Authenticator App'` and `'verification code generated'` and
clicks a `Select` control inside it (or a suitably positioned one among
its parent's controls), (2) otherwise falls back to clicking the second
of all `Select` controls on the page — requiring that at least two
exist — and reports whether anything was clicked; `handle2FA` throws
`Could not find Select button for Authenticator App` when it reports
`false`. -/

/-- A candidate section (`div`, `section` or `article`) as the
method-selection evaluate sees it: its text, the texts of the
`button`/`a` elements inside it, its parent's `button`/`a` elements
with their `offsetTop`, and its own offsets. -/
structure MSSection where
  text : List Char
  innerButtons : List (List Char)
  parentButtons : List (List Char × Nat)
  top : Nat
  height : Nat
deriving DecidableEq, Repr

/-- The page as the method-selection evaluate sees it. -/
structure MSPage where
  sections : List MSSection
  allButtons : List (List Char)
deriving DecidableEq, Repr

/-- `btn.innerText?.toLowerCase().includes('select')`. -/
def hasSelectText (t : List Char) : Bool :=
  containsSub "select".toList (t.map lcChar)

/-- The proximity text match: the first section whose text contains
both `'Authenticator App'` and `'verification code generated'`. -/
def authAppSection (p : MSPage) : Option MSSection :=
  p.sections.find? (fun s =>
    containsSub "Authenticator App".toList s.text &&
    containsSub "verification code generated".toList s.text)

/-- All `Select` controls on the page, in document order. -/
def selectButtonsOf (p : MSPage) : List (List Char) :=
  p.allButtons.filter hasSelectText

/-- Which control the method-selection evaluate clicks. -/
inductive MSClick
  | inSection (t : List Char)
  | inParent (t : List Char)
  | secondSelect (t : List Char)
deriving DecidableEq, Repr

/-- The method-selection evaluate: proximity match first, then the
positioned parent search, then the second-of-all-`Select` fallback
(which clicks `allSelectButtons[1]` only when more than one exists);
`none` means nothing was clicked and `handle2FA` throws
`MethodSelectionFailed`. -/
def methodSelectClick (p : MSPage) : Option MSClick :=
  match authAppSection p with
  | some sec =>
    match sec.innerButtons.find? hasSelectText with
    | some b => some (.inSection b)
    | none =>
      match sec.parentButtons.find? (fun bt =>
          hasSelectText bt.1 && decide (sec.top < bt.2) &&
          decide (bt.2 < sec.top + sec.height)) with
      | some bt => some (.inParent bt.1)
      | none => ((selectButtonsOf p).get? 1).map .secondSelect
  | none => ((selectButtonsOf p).get? 1).map .secondSelect

/-- Claim C8 (amended): when the authenticator-app option cannot be
located by the proximity text match, the handler falls back to
activating the second of all `Select` controls on the page, and it
fails with `MethodSelectionFailed` exactly when fewer than two `Select`
controls are found (in particular when none is). -/
theorem methodSelect_fallback (p : MSPage)
    (hprox : authAppSection p = none) :
    methodSelectClick p =
      ((selectButtonsOf p).get? 1).map MSClick.secondSelect ∧
    (methodSelectClick p = none ↔ (selectButtonsOf p).length ≤ 1) := by
  have h : methodSelectClick p =
      ((selectButtonsOf p).get? 1).map MSClick.secondSelect := by
    rw [methodSelectClick, hprox]
  refine ⟨h, ?_⟩
  rw [h, Option.map_eq_none', List.get?_eq_none]

theorem methodSelect_fallback_witness :
    methodSelectClick
        ⟨[], ["Cancel".toList, "Select Email".toList, "Select App".toList]⟩ =
      ((selectButtonsOf
        ⟨[], ["Cancel".toList, "Select Email".toList, "Select App".toList]⟩).get?
          1).map MSClick.secondSelect ∧
    (methodSelectClick
        ⟨[], ["Cancel".toList, "Select Email".toList, "Select App".toList]⟩ =
        none ↔
      (selectButtonsOf
        ⟨[], ["Cancel".toList, "Select Email".toList, "Select App".toList]⟩).length ≤
        1) :=
  methodSelect_fallback
    ⟨[], ["Cancel".toList, "Select Email".toList, "Select App".toList]⟩ rfl

/-- Claim C8 as stated is false at a concrete page: with no
authenticator-app proximity match and exactly one `Select` control on
the page, a `Select` control is found, yet nothing is clicked and
`handle2FA` throws `MethodSelectionFailed` (the fallback requires at
least two `Select` controls and activates the second). -/
theorem methodSelect_counterexample :
    authAppSection ⟨[], ["Select".toList]⟩ = none ∧
    (selectButtonsOf ⟨[], ["Select".toList]⟩).length = 1 ∧
    methodSelectClick ⟨[], ["Select".toList]⟩ = none :=
  ⟨rfl, rfl, rfl⟩

/-! ## developer-login.js sanitizeError: the regex-replacement engine

`sanitizeError` applies five global regex replacements in order.  The
semantics of `String.replace(regex, token)` with a `g` flag is a
left-to-right scan: at each position, if the pattern matches (with the
greedy, leftmost match the JavaScript engine produces), the match is
replaced by the token and scanning resumes after it; otherwise the
character is kept and scanning moves one position right.  A matcher is
a function `List Char → Option Nat` giving the length of the JS match
at the head of the input, if any. -/

/-- Iteration core of the replacement scan; the fuel argument bounds
the number of steps. -/
def replaceScanAux (m : List Char → Option Nat) (tok : List Char) :
    Nat → List Char → List Char
  | 0, s => s
  | _ + 1, [] => []
  | fuel + 1, c :: cs =>
    match m (c :: cs) with
    | some n => tok ++ replaceScanAux m tok fuel ((c :: cs).drop (max 1 n))
    | none => c :: replaceScanAux m tok fuel cs

/-- `String.replace(regex, token)` with the `g` flag, for the matcher
`m` and the fixed replacement string `tok`. -/
def replaceScan (m : List Char → Option Nat) (tok : List Char)
    (s : List Char) : List Char :=
  replaceScanAux m tok s.length s

theorem replaceScanAux_congr (m : List Char → Option Nat) (tok : List Char) :
    ∀ (fuel fuel' : Nat) (s : List Char), s.length ≤ fuel →
      s.length ≤ fuel' →
      replaceScanAux m tok fuel s = replaceScanAux m tok fuel' s := by
  intro fuel
  induction fuel with
  | zero =>
    intro fuel' s hs _
    have : s = [] := List.length_eq_zero.mp (by omega)
    subst this
    cases fuel' <;> rfl
  | succ fuel ih =>
    intro fuel' s hs hs'
    cases s with
    | nil => cases fuel' <;> rfl
    | cons c cs =>
      cases fuel' with
      | zero => simp at hs'
      | succ fuel' =>
        simp only [replaceScanAux]
        cases hm : m (c :: cs) with
        | none =>
          have h1 : cs.length ≤ fuel := by
            simp only [List.length_cons] at hs; omega
          have h2 : cs.length ≤ fuel' := by
            simp only [List.length_cons] at hs'; omega
          dsimp only
          rw [ih fuel' cs h1 h2]
        | some n =>
          have h1 : ((c :: cs).drop (max 1 n)).length ≤ fuel := by
            simp only [List.length_drop, List.length_cons] at *
            omega
          have h2 : ((c :: cs).drop (max 1 n)).length ≤ fuel' := by
            simp only [List.length_drop, List.length_cons] at *
            omega
          dsimp only
          rw [ih fuel' _ h1 h2]

theorem replaceScan_nil (m : List Char → Option Nat) (tok : List Char) :
    replaceScan m tok [] = [] := rfl

theorem replaceScan_cons_some {m : List Char → Option Nat} {c : Char}
    {cs : List Char} {n : Nat} (tok : List Char) (h : m (c :: cs) = some n) :
    replaceScan m tok (c :: cs) =
      tok ++ replaceScan m tok ((c :: cs).drop (max 1 n)) := by
  show replaceScanAux m tok (cs.length + 1) (c :: cs) = _
  rw [replaceScanAux, h]
  dsimp only
  rw [replaceScan]
  congr 1
  apply replaceScanAux_congr
  · simp only [List.length_drop, List.length_cons]
    omega
  · exact le_rfl

theorem replaceScan_cons_none {m : List Char → Option Nat} {c : Char}
    {cs : List Char} (tok : List Char) (h : m (c :: cs) = none) :
    replaceScan m tok (c :: cs) = c :: replaceScan m tok cs := by
  show replaceScanAux m tok (cs.length + 1) (c :: cs) = _
  rw [replaceScanAux, h]
  rfl

/-! ### Character classes and helper facts -/

/-- `[a-zA-Z]`. -/
def asciiAlpha (c : Char) : Bool :=
  (65 ≤ c.toNat && c.toNat ≤ 90) || (97 ≤ c.toNat && c.toNat ≤ 122)

/-- `[0-9]`. -/
def asciiDigit (c : Char) : Bool :=
  48 ≤ c.toNat && c.toNat ≤ 57

/-- `[a-zA-Z0-9._%+-]`, the local part of the email regex. -/
def localChar (c : Char) : Bool :=
  asciiAlpha c || asciiDigit c || c == '.' || c == '_' || c == '%' ||
  c == '+' || c == '-'

/-- `[a-zA-Z0-9.-]`, the domain classes of the email and service-now
regexes. -/
def domChar (c : Char) : Bool :=
  asciiAlpha c || asciiDigit c || c == '.' || c == '-'

theorem jsSpace_false_of_range {c : Char} (h1 : 33 ≤ c.toNat)
    (h2 : c.toNat ≤ 126) : jsSpace c = false := by
  simp only [jsSpace, Bool.or_eq_false_iff, Bool.and_eq_false_iff,
    decide_eq_false_iff_not, not_le]
  omega

theorem localChar_range {c : Char} (h : localChar c = true) :
    37 ≤ c.toNat ∧ c.toNat ≤ 122 := by
  simp only [localChar, asciiAlpha, asciiDigit, Bool.or_eq_true,
    Bool.and_eq_true, decide_eq_true_eq, beq_iff_eq] at h
  rcases h with ((((((h | h) | h) | h) | h) | h) | h)
  · rcases h with h | h <;> omega
  · omega
  · subst h; decide
  · subst h; decide
  · subst h; decide
  · subst h; decide
  · subst h; decide

theorem domChar_range {c : Char} (h : domChar c = true) :
    45 ≤ c.toNat ∧ c.toNat ≤ 122 := by
  simp only [domChar, asciiAlpha, asciiDigit, Bool.or_eq_true,
    Bool.and_eq_true, decide_eq_true_eq, beq_iff_eq] at h
  rcases h with (((h | h) | h) | h)
  · rcases h with h | h <;> omega
  · omega
  · subst h; decide
  · subst h; decide

theorem asciiAlpha_range {c : Char} (h : asciiAlpha c = true) :
    65 ≤ c.toNat ∧ c.toNat ≤ 122 := by
  simp only [asciiAlpha, Bool.or_eq_true, Bool.and_eq_true,
    decide_eq_true_eq] at h
  rcases h with h | h <;> omega

theorem toNat_eq_of_eq {c d : Char} (h : c = d) : c.toNat = d.toNat := by
  rw [h]

theorem char_ne_of_toNat_ne {c d : Char} (h : c.toNat ≠ d.toNat) :
    c ≠ d := fun he => h (toNat_eq_of_eq he)

theorem localChar_not_space {c : Char} (h : localChar c = true) :
    jsSpace c = false := by
  have := localChar_range h
  exact jsSpace_false_of_range (by omega) (by omega)

theorem domChar_not_space {c : Char} (h : domChar c = true) :
    jsSpace c = false := by
  have := domChar_range h
  exact jsSpace_false_of_range (by omega) (by omega)

theorem lcChar_not_space {c x : Char} (h : lcChar c = x)
    (hx : 33 ≤ x.toNat) (hx2 : x.toNat ≤ 126) : jsSpace c = false := by
  rw [lcChar, Char.toLower] at h
  split at h
  · rename_i hr
    exact jsSpace_false_of_range (by omega) (by omega)
  · rw [h]
    exact jsSpace_false_of_range hx hx2

theorem lcChar_ne {c x y : Char} (h : lcChar c = x) (hy : lcChar y = y)
    (hxy : x ≠ y) : c ≠ y := by
  intro he
  subst he
  rw [hy] at h
  exact hxy h.symm

/-! ### takeWhile facts -/

theorem takeWhile_get?_lt {P : Char → Bool} :
    ∀ (s : List Char) (i : Nat), i < (s.takeWhile P).length →
      ∃ c, s.get? i = some c ∧ P c = true := by
  intro s
  induction s with
  | nil => intro i h; simp at h
  | cons a t ih =>
    intro i h
    by_cases hp : P a
    · rw [List.takeWhile_cons_of_pos hp] at h
      cases i with
      | zero => exact ⟨a, rfl, hp⟩
      | succ i =>
        simp only [List.length_cons] at h
        have := ih i (by omega)
        simpa using this
    · rw [List.takeWhile_cons_of_neg (by simpa using hp)] at h
      simp at h

theorem takeWhile_get?_at {P : Char → Bool} :
    ∀ (s : List Char) {c : Char},
      s.get? (s.takeWhile P).length = some c → P c = false := by
  intro s
  induction s with
  | nil => intro c h; simp at h
  | cons a t ih =>
    intro c h
    by_cases hp : P a
    · rw [List.takeWhile_cons_of_pos hp] at h
      simp only [List.length_cons] at h
      exact ih (by simpa using h)
    · rw [List.takeWhile_cons_of_neg (by simpa using hp)] at h
      simp only [List.length_nil, List.get?] at h
      cases h
      simpa using hp

theorem takeWhile_length_ge {P : Char → Bool} :
    ∀ (s : List Char) (k : Nat),
      (∀ i < k, ∃ c, s.get? i = some c ∧ P c = true) →
      k ≤ (s.takeWhile P).length := by
  intro s
  induction s with
  | nil =>
    intro k h
    cases k with
    | zero => simp
    | succ k =>
      obtain ⟨c, hc, -⟩ := h 0 (by omega)
      simp at hc
  | cons a t ih =>
    intro k h
    cases k with
    | zero => simp
    | succ k =>
      obtain ⟨c, hc, hpc⟩ := h 0 (by omega)
      simp only [List.get?] at hc
      cases hc
      rw [List.takeWhile_cons_of_pos hpc]
      simp only [List.length_cons, Nat.succ_le_succ_iff]
      exact ih k (fun i hi => by simpa using h (i + 1) (by omega))

theorem takeWhile_length_eq {P : Char → Bool} {s : List Char} {l : Nat}
    (h1 : ∀ i < l, ∃ c, s.get? i = some c ∧ P c = true)
    (h2 : s.get? l = none ∨ ∃ c, s.get? l = some c ∧ P c = false) :
    (s.takeWhile P).length = l := by
  have hge := takeWhile_length_ge s l h1
  rcases Nat.lt_or_ge l (s.takeWhile P).length with hlt | hge2
  · obtain ⟨c, hc, hpc⟩ := takeWhile_get?_lt s l hlt
    rcases h2 with h2 | ⟨c', hc', hpc'⟩
    · rw [h2] at hc; cases hc
    · rw [hc] at hc'
      injection hc' with e
      rw [e] at hpc
      rw [hpc] at hpc'
      cases hpc'
  · omega

theorem takeWhile_length_le (P : Char → Bool) (s : List Char) :
    (s.takeWhile P).length ≤ s.length := by
  induction s with
  | nil => simp
  | cons a t ih =>
    by_cases hp : P a
    · rw [List.takeWhile_cons_of_pos hp]
      simp only [List.length_cons]
      omega
    · rw [List.takeWhile_cons_of_neg (by simpa using hp)]
      simp

/-! ### Case-insensitive prefix test -/

/-- Case-insensitive prefix test (`i` regex flag). -/
def startsWithCI (p s : List Char) : Bool :=
  decide (p.length ≤ s.length) && ((s.take p.length).map lcChar == p.map lcChar)

theorem startsWithCI_iff {p s : List Char} :
    startsWithCI p s = true ↔
      p.length ≤ s.length ∧
      ∀ i < p.length, (s.get? i).map lcChar = (p.get? i).map lcChar := by
  rw [startsWithCI, Bool.and_eq_true, decide_eq_true_eq, beq_iff_eq]
  constructor
  · rintro ⟨hlen, hmap⟩
    refine ⟨hlen, fun i hi => ?_⟩
    have h2 := congrArg (fun l => List.get? l i) hmap
    simp only [List.get?_map] at h2
    rwa [List.get?_take hi] at h2
  · rintro ⟨hlen, h⟩
    refine ⟨hlen, ?_⟩
    apply List.ext_get?
    intro i
    by_cases hi : i < p.length
    · simp only [List.get?_map, List.get?_take hi]
      exact h i hi
    · rw [List.get?_len_le, List.get?_len_le] <;>
        simp only [List.length_map, List.length_take] <;> omega

/-! ### The five matchers of sanitizeError

Each computes the length of the greedy, backtracking-correct match the
JavaScript engine produces at the head of the input, or `none`. -/

/-- Length of the leading `[^\s]+` run. -/
def nonspaceRun (s : List Char) : Nat :=
  (s.takeWhile (fun c => !jsSpace c)).length

/-- `/https?:\/\/[^\s]+/i` at the head of the input: the optional `s`
is resolved greedily, and the two literal alternatives are mutually
exclusive (they differ at index 4). -/
def urlMatch (s : List Char) : Option Nat :=
  if startsWithCI "https://".toList s then
    if nonspaceRun (s.drop 8) = 0 then none
    else some (8 + nonspaceRun (s.drop 8))
  else if startsWithCI "http://".toList s then
    if nonspaceRun (s.drop 7) = 0 then none
    else some (7 + nonspaceRun (s.drop 7))
  else none

/-- Length of the leading `[a-zA-Z]{2,}`-candidate run. -/
def tldRun (s : List Char) : Nat :=
  (s.takeWhile asciiAlpha).length

/-- Backtracking search for the `\.` split of
`[a-zA-Z0-9.-]+\.[a-zA-Z]{2,}` after the `@`: the engine consumes the
domain class greedily and backtracks, so the chosen `.` position is the
largest `p ≥ 1` inside the class run with at least two letters after
it.  Candidates are tried from the fuel value downwards. -/
def emailDomSplit (rest : List Char) : Nat → Option (Nat × Nat)
  | 0 => none
  | p + 1 =>
    if rest.get? (p + 1) = some '.' ∧ 2 ≤ tldRun (rest.drop (p + 2)) then
      some (p + 1, tldRun (rest.drop (p + 2)))
    else emailDomSplit rest p

/-- `/[a-zA-Z0-9._%+-]+@[a-zA-Z0-9.-]+\.[a-zA-Z]{2,}/` at the head of
the input.  The local run is maximal (no local character equals `@`,
so no backtracking arises there), and the domain/TLD split is the
backtracking search above. -/
def emailMatch (s : List Char) : Option Nat :=
  if (s.takeWhile localChar).length = 0 then none
  else
    match s.get? (s.takeWhile localChar).length with
    | some c =>
      if c = '@' then
        match emailDomSplit (s.drop ((s.takeWhile localChar).length + 1))
            (((s.drop ((s.takeWhile localChar).length + 1)).takeWhile
              domChar).length - 1) with
        | some pt =>
          some ((s.takeWhile localChar).length + 1 + pt.1 + 1 + pt.2)
        | none => none
      else none
    | none => none

/-- Backtracking search for the split of `[a-zA-Z0-9.-]*<literal>`:
the class is consumed greedily and backtracked one character at a
time, so the match uses the largest split `k` (at most the class-run
length) at which the literal follows case-insensitively. -/
def bestSplitCI (p s : List Char) : Nat → Option Nat
  | 0 => if startsWithCI p s then some 0 else none
  | k + 1 =>
    if startsWithCI p (s.drop (k + 1)) then some (k + 1)
    else bestSplitCI p s k

/-- `/[a-zA-Z0-9.-]*\.service-now\.com/i` at the head of the input. -/
def snMatch (s : List Char) : Option Nat :=
  (bestSplitCI ".service-now.com".toList s
    ((s.takeWhile domChar).length)).map (fun k => k + 16)

/-- A case-insensitive literal pattern at the head of the input. -/
def litMatchCI (lit : List Char) (s : List Char) : Option Nat :=
  if startsWithCI lit s then some lit.length else none

/-- `/signon\.service-now\.com/i` at the head of the input. -/
def signonMatch (s : List Char) : Option Nat :=
  litMatchCI "signon.service-now.com".toList s

/-- `/developer\.servicenow\.com/i` at the head of the input. -/
def developerMatch (s : List Char) : Option Nat :=
  litMatchCI "developer.servicenow.com".toList s

/-- The five fixed placeholder tokens. -/
def urlTok : List Char := "[URL]".toList

def emailTok : List Char := "[EMAIL]".toList

def snTok : List Char := "[SERVICENOW]".toList

def ssoTok : List Char := "[SSO]".toList

def devTok : List Char := "[DEVELOPER_PORTAL]".toList

/-- `sanitizeError` from developer-login.js / developer-login-debug.js:
the five global replacements, in source order. -/
def sanitizeError (msg : List Char) : List Char :=
  replaceScan developerMatch devTok
    (replaceScan signonMatch ssoTok
      (replaceScan snMatch snTok
        (replaceScan emailMatch emailTok
          (replaceScan urlMatch urlTok msg))))

/-! ### Prefix-agreement transfer facts -/

theorem get?_of_take_agree {s s' : List Char} {k i : Nat}
    (hag : s.take k = s'.take k) (hi : i < k) : s.get? i = s'.get? i := by
  have h1 := congrArg (fun l => List.get? l i) hag
  simp only at h1
  rwa [List.get?_take hi, List.get?_take hi] at h1

theorem take_agree_drop {s s' : List Char} {n d k : Nat}
    (hag : s.take n = s'.take n) (h : d + k ≤ n) :
    (s.drop d).take k = (s'.drop d).take k := by
  apply List.ext_get?
  intro i
  by_cases hi : i < k
  · rw [List.get?_take hi, List.get?_take hi, List.get?_drop, List.get?_drop]
    exact get?_of_take_agree hag (by omega)
  · rw [List.get?_len_le (le_trans (List.length_take_le _ _) (by omega)),
      List.get?_len_le (le_trans (List.length_take_le _ _) (by omega))]

theorem get?_map_lc_inv {s : List Char} {i : Nat} {x : Char}
    (h : (s.get? i).map lcChar = some x) :
    ∃ c, s.get? i = some c ∧ lcChar c = x := by
  cases hg : s.get? i with
  | none => rw [hg] at h; cases h
  | some c =>
    rw [hg] at h
    injection h with h
    exact ⟨c, rfl, h⟩

theorem startsWithCI_of_agree {p s s' : List Char} {k : Nat}
    (h : startsWithCI p s' = true) (hk : p.length ≤ k)
    (hag : s.take k = s'.take k) : startsWithCI p s = true := by
  obtain ⟨hlen', hch⟩ := startsWithCI_iff.mp h
  have hlen : p.length ≤ s.length := by
    have hl := congrArg List.length hag
    simp only [List.length_take] at hl
    omega
  refine startsWithCI_iff.mpr ⟨hlen, fun i hi => ?_⟩
  rw [get?_of_take_agree hag (by omega)]
  exact hch i hi

/-! ### URL matcher facts -/

theorem urlMatch_inv {s : List Char} {n : Nat} (h : urlMatch s = some n) :
    ∃ L, ((L = 8 ∧ startsWithCI "https://".toList s = true) ∨
          (L = 7 ∧ startsWithCI "http://".toList s = true)) ∧
      n = L + nonspaceRun (s.drop L) ∧ 1 ≤ nonspaceRun (s.drop L) := by
  unfold urlMatch at h
  by_cases h1 : startsWithCI "https://".toList s = true
  · rw [if_pos h1] at h
    by_cases h2 : nonspaceRun (s.drop 8) = 0
    · rw [if_pos h2] at h; cases h
    · rw [if_neg h2] at h
      injection h with h
      exact ⟨8, Or.inl ⟨rfl, h1⟩, h.symm, by omega⟩
  · rw [if_neg h1] at h
    by_cases h3 : startsWithCI "http://".toList s = true
    · rw [if_pos h3] at h
      by_cases h2 : nonspaceRun (s.drop 7) = 0
      · rw [if_pos h2] at h; cases h
      · rw [if_neg h2] at h
        injection h with h
        exact ⟨7, Or.inr ⟨rfl, h3⟩, h.symm, by omega⟩
    · rw [if_neg h3] at h; cases h

theorem https_http_conflict {s : List Char}
    (h : startsWithCI "http://".toList s = true) :
    startsWithCI "https://".toList s = false := by
  by_contra hc
  have hc' : startsWithCI "https://".toList s = true := by simpa using hc
  obtain ⟨-, hint⟩ := startsWithCI_iff.mp hc'
  obtain ⟨-, hint'⟩ := startsWithCI_iff.mp h
  have e1 := hint 4 (by decide)
  have e2 := hint' 4 (by decide)
  rw [e1] at e2
  exact absurd e2 (by decide)

theorem urlMatch_isSome_https {s : List Char}
    (h1 : startsWithCI "https://".toList s = true)
    (h2 : 1 ≤ nonspaceRun (s.drop 8)) : (urlMatch s).isSome = true := by
  rw [urlMatch, if_pos h1, if_neg (by omega)]
  rfl

theorem urlMatch_isSome_http {s : List Char}
    (h1 : startsWithCI "http://".toList s = true)
    (h2 : 1 ≤ nonspaceRun (s.drop 7)) : (urlMatch s).isSome = true := by
  rw [urlMatch, if_neg (by rw [https_http_conflict h1]; simp), if_pos h1,
    if_neg (by omega)]
  rfl

theorem urlMatch_mono {s s' : List Char} {n : Nat}
    (h : urlMatch s' = some n) (hag : s.take n = s'.take n) :
    (urlMatch s).isSome = true := by
  obtain ⟨L, hL, hn, hns⟩ := urlMatch_inv h
  have hLn : L < n := by omega
  obtain ⟨c1, hc1, hp1⟩ := takeWhile_get?_lt (P := fun c => !jsSpace c)
    (s'.drop L) 0 (by
      have he : nonspaceRun (s'.drop L) =
          ((s'.drop L).takeWhile (fun c => !jsSpace c)).length := rfl
      omega)
  rw [List.get?_drop, Nat.add_zero] at hc1
  have hgL : s.get? L = s'.get? L := get?_of_take_agree hag hLn
  have hrun : 1 ≤ nonspaceRun (s.drop L) := by
    apply takeWhile_length_ge
    intro i hi
    have hi0 : i = 0 := by omega
    subst hi0
    refine ⟨c1, ?_, hp1⟩
    rw [List.get?_drop, Nat.add_zero, hgL]
    exact hc1
  rcases hL with ⟨hL8, hsw⟩ | ⟨hL7, hsw⟩
  · subst hL8
    have hlen : ("https://".toList).length = 8 := rfl
    exact urlMatch_isSome_https (startsWithCI_of_agree hsw (by omega) hag) hrun
  · subst hL7
    have hlen : ("http://".toList).length = 7 := rfl
    exact urlMatch_isSome_http (startsWithCI_of_agree hsw (by omega) hag) hrun

theorem urlMatch_head_lc {s : List Char} {n : Nat} (h : urlMatch s = some n) :
    ∃ c, s.get? 0 = some c ∧ lcChar c = 'h' := by
  obtain ⟨L, hL, -, -⟩ := urlMatch_inv h
  rcases hL with ⟨-, hsw⟩ | ⟨-, hsw⟩ <;>
  · have h0 := (startsWithCI_iff.mp hsw).2 0 (by decide)
    exact get?_map_lc_inv (by rw [h0]; decide)

theorem urlMatch_head_nonspace {s : List Char} {n : Nat}
    (h : urlMatch s = some n) :
    ∃ c, s.get? 0 = some c ∧ jsSpace c = false := by
  obtain ⟨c, hc, hlc⟩ := urlMatch_head_lc h
  exact ⟨c, hc, lcChar_not_space hlc (by decide) (by decide)⟩

theorem urlMatch_nil : urlMatch [] = none := rfl

/-! ### Literal matcher facts -/

theorem litMatchCI_inv {lit s : List Char} {n : Nat}
    (h : litMatchCI lit s = some n) :
    n = lit.length ∧ startsWithCI lit s = true := by
  by_cases hs : startsWithCI lit s = true
  · rw [litMatchCI, if_pos hs] at h
    injection h with h
    exact ⟨h.symm, hs⟩
  · rw [litMatchCI, if_neg hs] at h
    cases h

theorem litMatchCI_mono {lit s s' : List Char} {n : Nat}
    (h : litMatchCI lit s' = some n) (hag : s.take n = s'.take n) :
    (litMatchCI lit s).isSome = true := by
  obtain ⟨hn, hsw⟩ := litMatchCI_inv h
  subst hn
  rw [litMatchCI, if_pos (startsWithCI_of_agree hsw le_rfl hag)]
  rfl

theorem litMatchCI_charset {lit s : List Char} {n : Nat}
    (h : litMatchCI lit s = some n)
    (hlit : ∀ j < lit.length, (lit.get? j).map lcChar ≠ some '[' ∧
      (lit.get? j).map lcChar ≠ some ']') :
    ∀ i c, i < n → s.get? i = some c → c ≠ '[' ∧ c ≠ ']' := by
  obtain ⟨hn, hsw⟩ := litMatchCI_inv h
  subst hn
  intro i c hi hc
  have := (startsWithCI_iff.mp hsw).2 i hi
  rw [hc] at this
  obtain ⟨hb1, hb2⟩ := hlit i hi
  constructor
  · intro he
    subst he
    exact hb1 (by rw [← this]; decide)
  · intro he
    subst he
    exact hb2 (by rw [← this]; decide)

theorem litMatchCI_need {lit s : List Char} {n : Nat} {j : Nat}
    (h : litMatchCI lit s = some n) (hj : j < lit.length)
    (hdot : (lit.get? j).map lcChar = some '.') :
    ∃ i c, i < n ∧ s.get? i = some c ∧ lcChar c = '.' := by
  obtain ⟨hn, hsw⟩ := litMatchCI_inv h
  subst hn
  have := (startsWithCI_iff.mp hsw).2 j hj
  rw [hdot] at this
  obtain ⟨c, hc, hlc⟩ := get?_map_lc_inv this
  exact ⟨j, c, hj, hc, hlc⟩

theorem litMatchCI_head_lc {lit s : List Char} {n : Nat} {x : Char}
    (h : litMatchCI lit s = some n) (hlit : 0 < lit.length)
    (hx : (lit.get? 0).map lcChar = some x) :
    ∃ c, s.get? 0 = some c ∧ lcChar c = x := by
  obtain ⟨-, hsw⟩ := litMatchCI_inv h
  have := (startsWithCI_iff.mp hsw).2 0 hlit
  rw [hx] at this
  exact get?_map_lc_inv this

/-! ### service-now domain matcher facts -/

theorem bestSplitCI_inv {p s : List Char} {k0 : Nat} :
    ∀ k, bestSplitCI p s k = some k0 →
      k0 ≤ k ∧ startsWithCI p (s.drop k0) = true := by
  intro k
  induction k with
  | zero =>
    intro h
    rw [bestSplitCI] at h
    split_ifs at h with hc
    injection h with h
    subst h
    exact ⟨le_rfl, by simpa using hc⟩
  | succ k ih =>
    intro h
    rw [bestSplitCI] at h
    split_ifs at h with hc
    · injection h with h
      subst h
      exact ⟨le_rfl, hc⟩
    · obtain ⟨h1, h2⟩ := ih h
      exact ⟨by omega, h2⟩

theorem bestSplitCI_exists {p s : List Char} {k0 : Nat} :
    ∀ k, k0 ≤ k → startsWithCI p (s.drop k0) = true →
      (bestSplitCI p s k).isSome = true := by
  intro k
  induction k with
  | zero =>
    intro hk h
    have h0 : k0 = 0 := by omega
    subst h0
    rw [bestSplitCI, if_pos (by simpa using h)]
    rfl
  | succ k ih =>
    intro hk h
    rw [bestSplitCI]
    split_ifs with hc
    · rfl
    · refine ih ?_ h
      rcases Nat.lt_or_ge k0 (k + 1) with h' | h'
      · omega
      · have he : k0 = k + 1 := by omega
        subst he
        exact absurd h hc

theorem snMatch_inv {s : List Char} {n : Nat} (h : snMatch s = some n) :
    ∃ k, n = k + 16 ∧ k ≤ (s.takeWhile domChar).length ∧
      startsWithCI ".service-now.com".toList (s.drop k) = true := by
  unfold snMatch at h
  cases hb : bestSplitCI ".service-now.com".toList s
      ((s.takeWhile domChar).length) with
  | none => rw [hb] at h; cases h
  | some k =>
    rw [hb] at h
    simp only [Option.map_some'] at h
    injection h with h
    obtain ⟨h1, h2⟩ := bestSplitCI_inv _ hb
    exact ⟨k, h.symm, h1, h2⟩

theorem snMatch_isSome {s : List Char} {k : Nat}
    (hk : k ≤ (s.takeWhile domChar).length)
    (hsw : startsWithCI ".service-now.com".toList (s.drop k) = true) :
    (snMatch s).isSome = true := by
  unfold snMatch
  have h := bestSplitCI_exists ((s.takeWhile domChar).length) hk hsw
  obtain ⟨k', hb⟩ := Option.isSome_iff_exists.mp h
  rw [hb]
  rfl

theorem snMatch_mono {s s' : List Char} {n : Nat}
    (h : snMatch s' = some n) (hag : s.take n = s'.take n) :
    (snMatch s).isSome = true := by
  obtain ⟨k, hn, hk, hsw⟩ := snMatch_inv h
  have hget : ∀ i, i < n → s.get? i = s'.get? i :=
    fun i hi => get?_of_take_agree hag hi
  have hrun : k ≤ (s.takeWhile domChar).length := by
    apply takeWhile_length_ge
    intro i hi
    obtain ⟨c, hc, hp'⟩ := takeWhile_get?_lt (P := domChar) s' i (by omega)
    exact ⟨c, by rw [hget i (by omega)]; exact hc, hp'⟩
  have hlen : (".service-now.com".toList).length = 16 := rfl
  have hsws : startsWithCI ".service-now.com".toList (s.drop k) = true := by
    apply startsWithCI_of_agree hsw (k := 16) (by omega)
    exact take_agree_drop hag (by omega)
  exact snMatch_isSome hrun hsws

theorem snMatch_charset {s : List Char} {n : Nat} (h : snMatch s = some n) :
    ∀ i c, i < n → s.get? i = some c → c ≠ '[' ∧ c ≠ ']' := by
  obtain ⟨k, hn, hk, hsw⟩ := snMatch_inv h
  intro i c hi hc
  rcases Nat.lt_or_ge i k with h1 | h1
  · obtain ⟨c', hc', hp'⟩ := takeWhile_get?_lt (P := domChar) s i (by omega)
    rw [hc] at hc'
    injection hc' with e
    subst e
    exact ⟨fun he => by subst he; exact absurd hp' (by decide),
      fun he => by subst he; exact absurd hp' (by decide)⟩
  · have hlen : (".service-now.com".toList).length = 16 := rfl
    have hthis := (startsWithCI_iff.mp hsw).2 (i - k) (by omega)
    rw [List.get?_drop] at hthis
    have he : k + (i - k) = i := by omega
    rw [he, hc] at hthis
    have hfact : ∀ j < 16,
        ((".service-now.com".toList).get? j).map lcChar ≠ some '[' ∧
        ((".service-now.com".toList).get? j).map lcChar ≠ some ']' := by decide
    obtain ⟨hb1, hb2⟩ := hfact (i - k) (by omega)
    constructor
    · intro hec
      subst hec
      apply hb1
      rw [← hthis]
      decide
    · intro hec
      subst hec
      apply hb2
      rw [← hthis]
      decide

theorem snMatch_need {s : List Char} {n : Nat} (h : snMatch s = some n) :
    ∃ i c, i < n ∧ s.get? i = some c ∧ lcChar c = '.' := by
  obtain ⟨k, hn, hk, hsw⟩ := snMatch_inv h
  have h0 := (startsWithCI_iff.mp hsw).2 0 (by decide)
  rw [List.get?_drop, Nat.add_zero] at h0
  have hdot : ((".service-now.com".toList).get? 0).map lcChar = some '.' := by
    decide
  obtain ⟨c, hc, hlc⟩ := get?_map_lc_inv (h0.trans hdot)
  exact ⟨k, c, by omega, hc, hlc⟩

theorem snMatch_head_nonspace {s : List Char} {n : Nat}
    (h : snMatch s = some n) :
    ∃ c, s.get? 0 = some c ∧ jsSpace c = false := by
  obtain ⟨k, hn, hk, hsw⟩ := snMatch_inv h
  cases k with
  | zero =>
    have h0 := (startsWithCI_iff.mp hsw).2 0 (by decide)
    rw [List.get?_drop, Nat.add_zero] at h0
    have hdot : ((".service-now.com".toList).get? 0).map lcChar = some '.' := by
      decide
    obtain ⟨c, hc, hlc⟩ := get?_map_lc_inv (h0.trans hdot)
    exact ⟨c, hc, lcChar_not_space hlc (by decide) (by decide)⟩
  | succ k' =>
    obtain ⟨c, hc, hp⟩ := takeWhile_get?_lt (P := domChar) s 0 (by omega)
    exact ⟨c, hc, domChar_not_space hp⟩

/-! ### Email matcher facts -/

theorem emailDomSplit_inv {rest : List Char} {p t : Nat} :
    ∀ k, emailDomSplit rest k = some (p, t) →
      1 ≤ p ∧ p ≤ k ∧ rest.get? p = some '.' ∧
      t = tldRun (rest.drop (p + 1)) ∧ 2 ≤ t := by
  intro k
  induction k with
  | zero => intro h; cases h
  | succ k ih =>
    intro h
    rw [emailDomSplit] at h
    split_ifs at h with hc
    · simp only [Option.some.injEq, Prod.mk.injEq] at h
      obtain ⟨hp, ht⟩ := h
      subst hp
      subst ht
      exact ⟨by omega, le_rfl, hc.1, rfl, hc.2⟩
    · obtain ⟨h1, h2, h3, h4, h5⟩ := ih h
      exact ⟨h1, by omega, h3, h4, h5⟩

theorem emailDomSplit_exists {rest : List Char} {p0 : Nat} :
    ∀ k, 1 ≤ p0 → p0 ≤ k → rest.get? p0 = some '.' →
      2 ≤ tldRun (rest.drop (p0 + 1)) →
      (emailDomSplit rest k).isSome = true := by
  intro k
  induction k with
  | zero => intro h1 h2 _ _; omega
  | succ k ih =>
    intro h1 h2 h3 h4
    rw [emailDomSplit]
    split_ifs with hc
    · rfl
    · refine ih h1 ?_ h3 h4
      rcases Nat.lt_or_ge p0 (k + 1) with h' | h'
      · omega
      · have he : p0 = k + 1 := by omega
        subst he
        exact absurd ⟨h3, h4⟩ hc

theorem emailMatch_inv {s : List Char} {n : Nat} (h : emailMatch s = some n) :
    ∃ l p t,
      n = l + 1 + p + 1 + t ∧ 1 ≤ l ∧ 1 ≤ p ∧ 2 ≤ t ∧
      (s.takeWhile localChar).length = l ∧
      s.get? l = some '@' ∧
      p ≤ ((s.drop (l + 1)).takeWhile domChar).length - 1 ∧
      (s.drop (l + 1)).get? p = some '.' ∧
      t = tldRun ((s.drop (l + 1)).drop (p + 1)) := by
  unfold emailMatch at h
  split_ifs at h with h0
  split at h
  case _ c hg =>
    split_ifs at h with hat
    subst hat
    split at h
    case _ pt hd =>
      injection h with h
      obtain ⟨h1, h2, h3, h4, h5⟩ := emailDomSplit_inv _ hd
      exact ⟨(s.takeWhile localChar).length, pt.1, pt.2, h.symm, by omega, h1,
        h5, rfl, hg, h2, h3, h4⟩
    case _ hd => cases h
  case _ hg => cases h

theorem emailMatch_isSome {s : List Char} {l p : Nat}
    (hl : (s.takeWhile localChar).length = l) (h1 : 1 ≤ l)
    (hat : s.get? l = some '@') (hp : 1 ≤ p)
    (hpk : p ≤ ((s.drop (l + 1)).takeWhile domChar).length - 1)
    (hdot : (s.drop (l + 1)).get? p = some '.')
    (htld : 2 ≤ tldRun ((s.drop (l + 1)).drop (p + 1))) :
    (emailMatch s).isSome = true := by
  have hsplit := emailDomSplit_exists
    (((s.drop (l + 1)).takeWhile domChar).length - 1) hp hpk hdot htld
  obtain ⟨pt, hd⟩ := Option.isSome_iff_exists.mp hsplit
  obtain ⟨p', t'⟩ := pt
  unfold emailMatch
  rw [hl, if_neg (by omega), hat]
  show (if '@' = '@' then _ else none).isSome = true
  rw [if_pos rfl, hd]
  rfl

theorem emailMatch_mono {s s' : List Char} {n : Nat}
    (h : emailMatch s' = some n) (hag : s.take n = s'.take n) :
    (emailMatch s).isSome = true := by
  obtain ⟨l, p, t, hn, hl1, hp1, ht2, hl, hat, hpk, hdot, htld⟩ :=
    emailMatch_inv h
  have hget : ∀ i, i < n → s.get? i = s'.get? i :=
    fun i hi => get?_of_take_agree hag hi
  have hls : (s.takeWhile localChar).length = l := by
    apply takeWhile_length_eq
    · intro i hi
      obtain ⟨c, hc, hp'⟩ :=
        takeWhile_get?_lt (P := localChar) s' i (by omega)
      exact ⟨c, by rw [hget i (by omega)]; exact hc, hp'⟩
    · right
      exact ⟨'@', by rw [hget l (by omega)]; exact hat, by decide⟩
  have hats : s.get? l = some '@' := by
    rw [hget l (by omega)]
    exact hat
  have hrest : ∀ i, i < p + 1 + t →
      (s.drop (l + 1)).get? i = (s'.drop (l + 1)).get? i := by
    intro i hi
    rw [List.get?_drop, List.get?_drop]
    exact hget (l + 1 + i) (by omega)
  have hdots : (s.drop (l + 1)).get? p = some '.' := by
    rw [hrest p (by omega)]
    exact hdot
  have htlds : 2 ≤ tldRun ((s.drop (l + 1)).drop (p + 1)) := by
    apply takeWhile_length_ge
    intro i hi
    obtain ⟨c, hc, hp'⟩ := takeWhile_get?_lt (P := asciiAlpha)
      ((s'.drop (l + 1)).drop (p + 1)) i (by
        have he : tldRun ((s'.drop (l + 1)).drop (p + 1)) =
            (((s'.drop (l + 1)).drop (p + 1)).takeWhile asciiAlpha).length :=
          rfl
        omega)
    refine ⟨c, ?_, hp'⟩
    rw [List.get?_drop, hrest (p + 1 + i) (by omega), ← List.get?_drop]
    exact hc
  have hpks : p ≤ ((s.drop (l + 1)).takeWhile domChar).length - 1 := by
    have hge : p + 1 ≤ ((s.drop (l + 1)).takeWhile domChar).length := by
      apply takeWhile_length_ge
      intro i hi
      rcases Nat.lt_or_ge i p with hip | hip
      · obtain ⟨c, hc, hp'⟩ := takeWhile_get?_lt (P := domChar)
          (s'.drop (l + 1)) i (by omega)
        exact ⟨c, by rw [hrest i (by omega)]; exact hc, hp'⟩
      · have he : i = p := by omega
        subst he
        exact ⟨'.', hdots, by decide⟩
    omega
  exact emailMatch_isSome hls (by omega) hats (by omega) hpks hdots htlds

theorem emailMatch_charset {s : List Char} {n : Nat}
    (h : emailMatch s = some n) :
    ∀ i c, i < n → s.get? i = some c → c ≠ '[' ∧ c ≠ ']' := by
  obtain ⟨l, p, t, hn, hl1, hp1, ht2, hl, hat, hpk, hdot, htld⟩ :=
    emailMatch_inv h
  intro i c hi hc
  rcases Nat.lt_or_ge i l with h1 | h1
  · obtain ⟨c', hc', hp'⟩ := takeWhile_get?_lt (P := localChar) s i (by omega)
    rw [hc] at hc'
    injection hc' with e
    subst e
    exact ⟨fun he => by subst he; exact absurd hp' (by decide),
      fun he => by subst he; exact absurd hp' (by decide)⟩
  rcases Nat.lt_or_ge i (l + 1) with h2 | h2
  · have he : i = l := by omega
    subst he
    rw [hat] at hc
    injection hc with e
    subst e
    exact ⟨by decide, by decide⟩
  have hj : (s.drop (l + 1)).get? (i - (l + 1)) = some c := by
    rw [List.get?_drop]
    rw [show l + 1 + (i - (l + 1)) = i by omega]
    exact hc
  rcases Nat.lt_or_ge (i - (l + 1)) p with h3 | h3
  · obtain ⟨c', hc', hp'⟩ := takeWhile_get?_lt (P := domChar)
      (s.drop (l + 1)) (i - (l + 1)) (by omega)
    rw [hj] at hc'
    injection hc' with e
    subst e
    exact ⟨fun he => by subst he; exact absurd hp' (by decide),
      fun he => by subst he; exact absurd hp' (by decide)⟩
  rcases Nat.lt_or_ge (i - (l + 1)) (p + 1) with h4 | h4
  · have he : i - (l + 1) = p := by omega
    rw [he, hdot] at hj
    injection hj with e
    subst e
    exact ⟨by decide, by decide⟩
  · have hj2 : ((s.drop (l + 1)).drop (p + 1)).get? (i - (l + 1) - (p + 1)) =
        some c := by
      rw [List.get?_drop]
      rw [show p + 1 + (i - (l + 1) - (p + 1)) = i - (l + 1) by omega]
      exact hj
    obtain ⟨c', hc', hp'⟩ := takeWhile_get?_lt (P := asciiAlpha)
      ((s.drop (l + 1)).drop (p + 1)) (i - (l + 1) - (p + 1)) (by
        have he : tldRun ((s.drop (l + 1)).drop (p + 1)) =
            (((s.drop (l + 1)).drop (p + 1)).takeWhile asciiAlpha).length :=
          rfl
        omega)
    rw [hj2] at hc'
    injection hc' with e
    subst e
    exact ⟨fun he => by subst he; exact absurd hp' (by decide),
      fun he => by subst he; exact absurd hp' (by decide)⟩

theorem emailMatch_need {s : List Char} {n : Nat}
    (h : emailMatch s = some n) :
    ∃ i c, i < n ∧ s.get? i = some c ∧ c = '@' := by
  obtain ⟨l, p, t, hn, hl1, hp1, ht2, hl, hat, -, -, -⟩ := emailMatch_inv h
  exact ⟨l, '@', by omega, hat, rfl⟩

theorem emailMatch_head_nonspace {s : List Char} {n : Nat}
    (h : emailMatch s = some n) :
    ∃ c, s.get? 0 = some c ∧ jsSpace c = false := by
  obtain ⟨l, p, t, hn, hl1, -, -, hl, -, -, -, -⟩ := emailMatch_inv h
  obtain ⟨c, hc, hp'⟩ := takeWhile_get?_lt (P := localChar) s 0 (by omega)
  exact ⟨c, hc, localChar_not_space hp'⟩

/-- A string is free of matches of `m`: no suffix starts a match. -/
def patFree (m : List Char → Option Nat) (t : List Char) : Prop :=
  ∀ i, m (t.drop i) = none

theorem patFree_cons {m : List Char → Option Nat} {c : Char}
    {t : List Char} :
    patFree m (c :: t) ↔ m (c :: t) = none ∧ patFree m t := by
  constructor
  · intro h
    refine ⟨h 0, fun i => ?_⟩
    have := h (i + 1)
    simpa using this
  · rintro ⟨h0, h⟩ i
    cases i with
    | zero => exact h0
    | succ i => simpa using h i

theorem patFree_drop {m : List Char → Option Nat} {t : List Char}
    (h : patFree m t) (n : Nat) : patFree m (t.drop n) := by
  intro i
  rw [List.drop_drop]
  exact h (n + i)

theorem patFree_of_append {m : List Char → Option Nat} {a b : List Char}
    (h : patFree m (a ++ b)) : patFree m b := by
  intro i
  have := h (a.length + i)
  rwa [List.drop_append_eq_append_drop, List.drop_of_length_le (by omega),
    List.nil_append, Nat.add_comm, Nat.add_sub_cancel] at this

theorem replaceScan_shape (m : List Char → Option Nat) (tok : List Char)
    (htok : tok ≠ []) :
    ∀ s, replaceScan m tok s = s ∨
      ∃ j, j < s.length ∧ (replaceScan m tok s).take j = s.take j ∧
        (replaceScan m tok s).get? j = tok.head? ∧
        (m (s.drop j)).isSome = true := by
  suffices H : ∀ (n : Nat) (s : List Char), s.length ≤ n →
      (replaceScan m tok s = s ∨
        ∃ j, j < s.length ∧ (replaceScan m tok s).take j = s.take j ∧
          (replaceScan m tok s).get? j = tok.head? ∧
          (m (s.drop j)).isSome = true) by
    intro s
    exact H s.length s le_rfl
  intro n
  induction n with
  | zero =>
    intro s hs
    have : s = [] := List.length_eq_zero.mp (by omega)
    subst this
    left
    rfl
  | succ n ih =>
    intro s hs
    cases s with
    | nil => left; rfl
    | cons c cs =>
      cases hm : m (c :: cs) with
      | some k =>
        right
        refine ⟨0, by simp, by simp, ?_, by simp [hm]⟩
        rw [replaceScan_cons_some tok hm]
        cases tok with
        | nil => exact absurd rfl htok
        | cons t0 tt => rfl
      | none =>
        rw [replaceScan_cons_none tok hm]
        have hcs : cs.length ≤ n := by
          simp only [List.length_cons] at hs; omega
        rcases ih cs hcs with hid | ⟨j, hj, htake, hget, hm2⟩
        · left
          rw [hid]
        · right
          refine ⟨j + 1, by simpa using hj, ?_, ?_, ?_⟩
          · simp only [List.take_succ_cons, htake]
          · simpa using hget
          · simpa using hm2

theorem replaceScan_of_patFree (m : List Char → Option Nat)
    (tok : List Char) :
    ∀ s, patFree m s → replaceScan m tok s = s := by
  suffices H : ∀ (n : Nat) (s : List Char), s.length ≤ n → patFree m s →
      replaceScan m tok s = s by
    intro s
    exact H s.length s le_rfl
  intro n
  induction n with
  | zero =>
    intro s hs _
    have : s = [] := List.length_eq_zero.mp (by omega)
    subst this
    rfl
  | succ n ih =>
    intro s hs hf
    cases s with
    | nil => rfl
    | cons c cs =>
      obtain ⟨h0, htail⟩ := patFree_cons.mp hf
      rw [replaceScan_cons_none tok h0]
      have hcs : cs.length ≤ n := by
        simp only [List.length_cons] at hs; omega
      rw [ih cs hcs htail]

/-- Self-freeness: the output of a replacement scan has no match of the
scanned pattern left, provided matches cannot start inside the token
(`htokSafe`) and replacing inside the tail cannot create a match at the
head (`hcons`). -/
theorem replaceScan_selfFree (m : List Char → Option Nat)
    (tok : List Char) (hnil : m [] = none)
    (htokSafe : ∀ r, patFree m r → patFree m (tok ++ r))
    (hcons : ∀ c cs, m (c :: cs) = none →
      m (c :: replaceScan m tok cs) = none) :
    ∀ s, patFree m (replaceScan m tok s) := by
  suffices H : ∀ (n : Nat) (s : List Char), s.length ≤ n →
      patFree m (replaceScan m tok s) by
    intro s
    exact H s.length s le_rfl
  intro n
  induction n with
  | zero =>
    intro s hs
    have : s = [] := List.length_eq_zero.mp (by omega)
    subst this
    intro i
    rw [replaceScan_nil]
    simpa using hnil
  | succ n ih =>
    intro s hs
    cases s with
    | nil =>
      intro i
      rw [replaceScan_nil]
      simpa using hnil
    | cons c cs =>
      cases hm : m (c :: cs) with
      | some k =>
        rw [replaceScan_cons_some tok hm]
        apply htokSafe
        apply ih
        simp only [List.length_drop, List.length_cons] at *
        omega
      | none =>
        rw [replaceScan_cons_none tok hm]
        have hcs : cs.length ≤ n := by
          simp only [List.length_cons] at hs; omega
        rw [patFree_cons]
        exact ⟨hcons c cs hm, ih cs hcs⟩

/-- Preservation: a replacement scan for `m` keeps a string free of
another pattern `p`, provided `p`-matches cannot start inside the token
and replacing inside a tail cannot create a `p`-match at the head. -/
theorem replaceScan_preserveFree (p m : List Char → Option Nat)
    (tok : List Char)
    (htokSafe : ∀ r, patFree p r → patFree p (tok ++ r))
    (hcons : ∀ c cs, p (c :: cs) = none →
      p (c :: replaceScan m tok cs) = none) :
    ∀ s, patFree p s → patFree p (replaceScan m tok s) := by
  suffices H : ∀ (n : Nat) (s : List Char), s.length ≤ n → patFree p s →
      patFree p (replaceScan m tok s) by
    intro s
    exact H s.length s le_rfl
  intro n
  induction n with
  | zero =>
    intro s hs hf
    have : s = [] := List.length_eq_zero.mp (by omega)
    subst this
    exact hf
  | succ n ih =>
    intro s hs hf
    cases s with
    | nil => exact hf
    | cons c cs =>
      cases hm : m (c :: cs) with
      | some k =>
        rw [replaceScan_cons_some tok hm]
        apply htokSafe
        apply ih
        · simp only [List.length_drop, List.length_cons] at *
          omega
        · exact patFree_drop hf _
      | none =>
        rw [replaceScan_cons_none tok hm]
        have hcs : cs.length ≤ n := by
          simp only [List.length_cons] at hs; omega
        obtain ⟨h0, htail⟩ := patFree_cons.mp hf
        rw [patFree_cons]
        exact ⟨hcons c cs h0, ih cs hcs htail⟩

/-! ### Divergence safety: replacing inside the tail cannot create a
match at the head.  The output of the scan agrees with the input up to
the first replacement, where a `[` appears; a match of the bracket-free
patterns cannot contain `[` or `]`, and a match confined to the
agreeing prefix lifts back to the input by monotonicity.  The URL
pattern admits `[` in its `[^\s]+` part and gets its own argument. -/

theorem divSafe_bracket {m : List Char → Option Nat}
    (hmono : ∀ s s' n, m s' = some n → s.take n = s'.take n →
      (m s).isSome = true)
    (hchar : ∀ s n, m s = some n → ∀ i c, i < n → s.get? i = some c →
      c ≠ '[' ∧ c ≠ ']') :
    ∀ s s' j, s.take j = s'.take j → s'.get? j = some '[' →
      m s = none → m s' = none := by
  intro s s' j hag hget hnone
  cases hm : m s' with
  | none => rfl
  | some n' =>
    exfalso
    rcases Nat.lt_or_ge j n' with hj | hj
    · exact (hchar s' n' hm j '[' hj hget).1 rfl
    · have hag' : s.take n' = s'.take n' := by
        have h2 := congrArg (fun l => List.take n' l) hag
        simpa [List.take_take, Nat.min_eq_left hj] using h2
      have h3 := hmono s s' n' hm hag'
      rw [hnone] at h3
      cases h3

theorem urlDivSafe (s s' : List Char) (j : Nat)
    (hag : s.take j = s'.take j) (hget : s'.get? j = some '[')
    (hns : ∃ c0, s.get? j = some c0 ∧ jsSpace c0 = false)
    (hnone : urlMatch s = none) : urlMatch s' = none := by
  cases hm : urlMatch s' with
  | none => rfl
  | some n' =>
    exfalso
    obtain ⟨L, hL, hn, hrun⟩ := urlMatch_inv hm
    rcases Nat.lt_or_ge j n' with hj | hj
    swap
    · have hag' : s.take n' = s'.take n' := by
        have h2 := congrArg (fun l => List.take n' l) hag
        simpa [List.take_take, Nat.min_eq_left hj] using h2
      have h3 := urlMatch_mono hm hag'
      rw [hnone] at h3
      cases h3
    rcases Nat.lt_or_ge j L with hjL | hjL
    · rcases hL with ⟨hL8, hsw⟩ | ⟨hL7, hsw⟩
      · subst hL8
        have hlen : ("https://".toList).length = 8 := rfl
        have hch := (startsWithCI_iff.mp hsw).2 j (by omega)
        rw [hget] at hch
        have hfact : ∀ jj < 8,
            (("https://".toList).get? jj).map lcChar ≠ some '[' := by decide
        exact hfact j (by omega) (by rw [← hch]; decide)
      · subst hL7
        have hlen : ("http://".toList).length = 7 := rfl
        have hch := (startsWithCI_iff.mp hsw).2 j (by omega)
        rw [hget] at hch
        have hfact : ∀ jj < 7,
            (("http://".toList).get? jj).map lcChar ≠ some '[' := by decide
        exact hfact j (by omega) (by rw [← hch]; decide)
    · obtain ⟨c0, hc0, hc0ns⟩ := hns
      have hjlen : j < s.length := by
        by_contra hge
        rw [List.get?_len_le (by omega)] at hc0
        cases hc0
      have hsrun : 1 ≤ nonspaceRun (s.drop L) := by
        apply takeWhile_length_ge
        intro i hi
        have hi0 : i = 0 := by omega
        subst hi0
        rcases Nat.lt_or_ge L j with hLj | hLj
        · obtain ⟨c1, hc1, hp1⟩ := takeWhile_get?_lt
            (P := fun c => !jsSpace c) (s'.drop L) 0 (by
              have he : nonspaceRun (s'.drop L) =
                  ((s'.drop L).takeWhile (fun c => !jsSpace c)).length := rfl
              omega)
          rw [List.get?_drop, Nat.add_zero] at hc1
          refine ⟨c1, ?_, hp1⟩
          rw [List.get?_drop, Nat.add_zero, get?_of_take_agree hag (by omega)]
          exact hc1
        · have hLj' : L = j := by omega
          subst hLj'
          refine ⟨c0, ?_, by simp [hc0ns]⟩
          rw [List.get?_drop, Nat.add_zero]
          exact hc0
      rcases hL with ⟨hL8, hsw⟩ | ⟨hL7, hsw⟩
      · subst hL8
        have hlen : ("https://".toList).length = 8 := rfl
        have hsws : startsWithCI "https://".toList s = true := by
          refine startsWithCI_iff.mpr ⟨by omega, fun i hi => ?_⟩
          rw [get?_of_take_agree hag (by omega)]
          exact (startsWithCI_iff.mp hsw).2 i hi
        have h3 := urlMatch_isSome_https hsws hsrun
        rw [hnone] at h3
        cases h3
      · subst hL7
        have hlen : ("http://".toList).length = 7 := rfl
        have hsws : startsWithCI "http://".toList s = true := by
          refine startsWithCI_iff.mpr ⟨by omega, fun i hi => ?_⟩
          rw [get?_of_take_agree hag (by omega)]
          exact (startsWithCI_iff.mp hsw).2 i hi
        have h3 := urlMatch_isSome_http hsws hsrun
        rw [hnone] at h3
        cases h3

theorem consSafe_bracket {p m : List Char → Option Nat} {tok : List Char}
    (htok : tok.head? = some '[')
    (hdiv : ∀ s s' j, s.take j = s'.take j → s'.get? j = some '[' →
      p s = none → p s' = none) :
    ∀ c cs, p (c :: cs) = none → p (c :: replaceScan m tok cs) = none := by
  intro c cs hnone
  have htokne : tok ≠ [] := by
    intro he
    rw [he] at htok
    cases htok
  rcases replaceScan_shape m tok htokne cs with hid | ⟨j, hj, htake, hget, -⟩
  · rw [hid]
    exact hnone
  · refine hdiv (c :: cs) (c :: replaceScan m tok cs) (j + 1) ?_ ?_ hnone
    · rw [List.take_succ_cons, List.take_succ_cons, htake]
    · rw [List.get?_cons_succ, hget]
      exact htok

theorem consSafe_url {m : List Char → Option Nat} {tok : List Char}
    (htok : tok.head? = some '[')
    (hstart : ∀ s n, m s = some n →
      ∃ c, s.get? 0 = some c ∧ jsSpace c = false) :
    ∀ c cs, urlMatch (c :: cs) = none →
      urlMatch (c :: replaceScan m tok cs) = none := by
  intro c cs hnone
  have htokne : tok ≠ [] := by
    intro he
    rw [he] at htok
    cases htok
  rcases replaceScan_shape m tok htokne cs with hid | ⟨j, hj, htake, hget, hm⟩
  · rw [hid]
    exact hnone
  · obtain ⟨n0, hm0⟩ := Option.isSome_iff_exists.mp hm
    obtain ⟨c0, hc0, hns0⟩ := hstart _ _ hm0
    rw [List.get?_drop, Nat.add_zero] at hc0
    refine urlDivSafe (c :: cs) (c :: replaceScan m tok cs) (j + 1) ?_ ?_
      ⟨c0, ?_, hns0⟩ hnone
    · rw [List.take_succ_cons, List.take_succ_cons, htake]
    · rw [List.get?_cons_succ, hget]
      exact htok
    · rw [List.get?_cons_succ]
      exact hc0

/-! ### Token safety: no match can start inside a replacement token.
A match of a bracket-free pattern starting inside a token would have to
cross the closing `]` (excluded by the character-set fact) or live
inside the token, which lacks the `@` or `.`-like character every such
match needs.  A URL match needs a leading `h`, which no token has. -/

theorem tokSafe_bracket {m : List Char → Option Nat} {Q : Char → Prop}
    {tok : List Char}
    (hneed : ∀ s n, m s = some n → ∃ i c, i < n ∧ s.get? i = some c ∧ Q c)
    (hchar : ∀ s n, m s = some n → ∀ i c, i < n → s.get? i = some c →
      c ≠ '[' ∧ c ≠ ']')
    (htokQ : ∀ c ∈ tok, ¬ Q c)
    (htoklast : tok.getLast? = some ']') :
    ∀ r, patFree m r → patFree m (tok ++ r) := by
  intro r hf i
  rcases Nat.lt_or_ge i tok.length with hi | hi
  · rw [List.drop_append_eq_append_drop,
      Nat.sub_eq_zero_of_le (le_of_lt hi), List.drop_zero]
    cases hm : m (tok.drop i ++ r) with
    | none => rfl
    | some n =>
      exfalso
      have hbr : (tok.drop i ++ r).get? (tok.length - 1 - i) = some ']' := by
        rw [List.get?_append (by simp only [List.length_drop]; omega),
          List.get?_drop,
          show i + (tok.length - 1 - i) = tok.length - 1 by omega,
          ← List.getLast?_eq_get?]
        exact htoklast
      rcases Nat.lt_or_ge (tok.length - 1 - i) n with hpos | hpos
      · exact ((hchar _ n hm _ ']' hpos hbr).2) rfl
      · obtain ⟨idx, c, hidx, hc, hQ⟩ := hneed _ n hm
        have hin : idx < (tok.drop i).length := by
          simp only [List.length_drop]
          omega
        rw [List.get?_append hin, List.get?_drop] at hc
        exact htokQ c (List.get?_mem hc) hQ
  · rw [List.drop_append_eq_append_drop, List.drop_of_length_le hi,
      List.nil_append]
    exact hf (i - tok.length)

theorem tokSafe_url {tok : List Char}
    (hh : ∀ c ∈ tok, lcChar c ≠ 'h') :
    ∀ r, patFree urlMatch r → patFree urlMatch (tok ++ r) := by
  intro r hf i
  rcases Nat.lt_or_ge i tok.length with hi | hi
  · rw [List.drop_append_eq_append_drop,
      Nat.sub_eq_zero_of_le (le_of_lt hi), List.drop_zero]
    cases hm : urlMatch (tok.drop i ++ r) with
    | none => rfl
    | some n =>
      exfalso
      obtain ⟨c, hc, hlc⟩ := urlMatch_head_lc hm
      rw [List.get?_append (by simp only [List.length_drop]; omega),
        List.get?_drop, Nat.add_zero] at hc
      exact hh c (List.get?_mem hc) hlc
  · rw [List.drop_append_eq_append_drop, List.drop_of_length_le hi,
      List.nil_append]
    exact hf (i - tok.length)

/-! ### Facts for the two literal domain matchers -/

theorem signonMatch_mono {s s' : List Char} {n : Nat}
    (h : signonMatch s' = some n) (hag : s.take n = s'.take n) :
    (signonMatch s).isSome = true :=
  litMatchCI_mono
    (show litMatchCI ("signon.service-now.com".toList) s' = some n from h) hag

theorem signonMatch_charset {s : List Char} {n : Nat}
    (h : signonMatch s = some n) :
    ∀ i c, i < n → s.get? i = some c → c ≠ '[' ∧ c ≠ ']' :=
  litMatchCI_charset
    (show litMatchCI ("signon.service-now.com".toList) s = some n from h)
    (by decide)

theorem signonMatch_need {s : List Char} {n : Nat}
    (h : signonMatch s = some n) :
    ∃ i c, i < n ∧ s.get? i = some c ∧ lcChar c = '.' :=
  litMatchCI_need (j := 6)
    (show litMatchCI ("signon.service-now.com".toList) s = some n from h)
    (by decide) (by decide)

theorem signonMatch_head_nonspace {s : List Char} {n : Nat}
    (h : signonMatch s = some n) :
    ∃ c, s.get? 0 = some c ∧ jsSpace c = false := by
  obtain ⟨c, hc, hlc⟩ := litMatchCI_head_lc (x := 's')
    (show litMatchCI ("signon.service-now.com".toList) s = some n from h)
    (by decide) (by decide)
  exact ⟨c, hc, lcChar_not_space hlc (by decide) (by decide)⟩

theorem developerMatch_mono {s s' : List Char} {n : Nat}
    (h : developerMatch s' = some n) (hag : s.take n = s'.take n) :
    (developerMatch s).isSome = true :=
  litMatchCI_mono
    (show litMatchCI ("developer.servicenow.com".toList) s' = some n from h)
    hag

theorem developerMatch_charset {s : List Char} {n : Nat}
    (h : developerMatch s = some n) :
    ∀ i c, i < n → s.get? i = some c → c ≠ '[' ∧ c ≠ ']' :=
  litMatchCI_charset
    (show litMatchCI ("developer.servicenow.com".toList) s = some n from h)
    (by decide)

theorem developerMatch_need {s : List Char} {n : Nat}
    (h : developerMatch s = some n) :
    ∃ i c, i < n ∧ s.get? i = some c ∧ lcChar c = '.' :=
  litMatchCI_need (j := 9)
    (show litMatchCI ("developer.servicenow.com".toList) s = some n from h)
    (by decide) (by decide)

theorem developerMatch_head_nonspace {s : List Char} {n : Nat}
    (h : developerMatch s = some n) :
    ∃ c, s.get? 0 = some c ∧ jsSpace c = false := by
  obtain ⟨c, hc, hlc⟩ := litMatchCI_head_lc (x := 'd')
    (show litMatchCI ("developer.servicenow.com".toList) s = some n from h)
    (by decide) (by decide)
  exact ⟨c, hc, lcChar_not_space hlc (by decide) (by decide)⟩

theorem emailMatch_nil : emailMatch [] = none := by decide

theorem snMatch_nil : snMatch [] = none := by decide

theorem signonMatch_nil : signonMatch [] = none := by decide

theorem developerMatch_nil : developerMatch [] = none := by decide

/-! ### Divergence-safety instances -/

theorem emailDivSafe : ∀ s s' j, s.take j = s'.take j →
    s'.get? j = some '[' → emailMatch s = none → emailMatch s' = none :=
  divSafe_bracket (fun _ _ _ h hag => emailMatch_mono h hag)
    (fun _ _ h => emailMatch_charset h)

theorem snDivSafe : ∀ s s' j, s.take j = s'.take j →
    s'.get? j = some '[' → snMatch s = none → snMatch s' = none :=
  divSafe_bracket (fun _ _ _ h hag => snMatch_mono h hag)
    (fun _ _ h => snMatch_charset h)

theorem signonDivSafe : ∀ s s' j, s.take j = s'.take j →
    s'.get? j = some '[' → signonMatch s = none → signonMatch s' = none :=
  divSafe_bracket (fun _ _ _ h hag => signonMatch_mono h hag)
    (fun _ _ h => signonMatch_charset h)

theorem devDivSafe : ∀ s s' j, s.take j = s'.take j →
    s'.get? j = some '[' → developerMatch s = none →
      developerMatch s' = none :=
  divSafe_bracket (fun _ _ _ h hag => developerMatch_mono h hag)
    (fun _ _ h => developerMatch_charset h)

/-! ### Freeness of the sanitized output, pattern by pattern -/

theorem sanitizeError_urlFree (msg : List Char) :
    patFree urlMatch (sanitizeError msg) := by
  have h1 : patFree urlMatch (replaceScan urlMatch urlTok msg) :=
    replaceScan_selfFree urlMatch urlTok urlMatch_nil
      (tokSafe_url (by decide))
      (consSafe_url (by decide) (fun _ _ h => urlMatch_head_nonspace h)) msg
  have h2 := replaceScan_preserveFree urlMatch emailMatch emailTok
    (tokSafe_url (by decide))
    (consSafe_url (by decide) (fun _ _ h => emailMatch_head_nonspace h)) _ h1
  have h3 := replaceScan_preserveFree urlMatch snMatch snTok
    (tokSafe_url (by decide))
    (consSafe_url (by decide) (fun _ _ h => snMatch_head_nonspace h)) _ h2
  have h4 := replaceScan_preserveFree urlMatch signonMatch ssoTok
    (tokSafe_url (by decide))
    (consSafe_url (by decide) (fun _ _ h => signonMatch_head_nonspace h)) _ h3
  exact replaceScan_preserveFree urlMatch developerMatch devTok
    (tokSafe_url (by decide))
    (consSafe_url (by decide)
      (fun _ _ h => developerMatch_head_nonspace h)) _ h4

theorem sanitizeError_emailFree (msg : List Char) :
    patFree emailMatch (sanitizeError msg) := by
  have h2 : patFree emailMatch
      (replaceScan emailMatch emailTok (replaceScan urlMatch urlTok msg)) :=
    replaceScan_selfFree emailMatch emailTok emailMatch_nil
      (tokSafe_bracket (Q := fun c => c = '@')
        (fun _ _ h => emailMatch_need h)
        (fun _ _ h => emailMatch_charset h) (by decide) (by decide))
      (consSafe_bracket (by decide) emailDivSafe) _
  have h3 := replaceScan_preserveFree emailMatch snMatch snTok
    (tokSafe_bracket (Q := fun c => c = '@')
      (fun _ _ h => emailMatch_need h)
      (fun _ _ h => emailMatch_charset h) (by decide) (by decide))
    (consSafe_bracket (by decide) emailDivSafe) _ h2
  have h4 := replaceScan_preserveFree emailMatch signonMatch ssoTok
    (tokSafe_bracket (Q := fun c => c = '@')
      (fun _ _ h => emailMatch_need h)
      (fun _ _ h => emailMatch_charset h) (by decide) (by decide))
    (consSafe_bracket (by decide) emailDivSafe) _ h3
  exact replaceScan_preserveFree emailMatch developerMatch devTok
    (tokSafe_bracket (Q := fun c => c = '@')
      (fun _ _ h => emailMatch_need h)
      (fun _ _ h => emailMatch_charset h) (by decide) (by decide))
    (consSafe_bracket (by decide) emailDivSafe) _ h4

theorem sanitizeError_snFree (msg : List Char) :
    patFree snMatch (sanitizeError msg) := by
  have h3 : patFree snMatch (replaceScan snMatch snTok
      (replaceScan emailMatch emailTok (replaceScan urlMatch urlTok msg))) :=
    replaceScan_selfFree snMatch snTok snMatch_nil
      (tokSafe_bracket (Q := fun c => lcChar c = '.')
        (fun _ _ h => snMatch_need h)
        (fun _ _ h => snMatch_charset h) (by decide) (by decide))
      (consSafe_bracket (by decide) snDivSafe) _
  have h4 := replaceScan_preserveFree snMatch signonMatch ssoTok
    (tokSafe_bracket (Q := fun c => lcChar c = '.')
      (fun _ _ h => snMatch_need h)
      (fun _ _ h => snMatch_charset h) (by decide) (by decide))
    (consSafe_bracket (by decide) snDivSafe) _ h3
  exact replaceScan_preserveFree snMatch developerMatch devTok
    (tokSafe_bracket (Q := fun c => lcChar c = '.')
      (fun _ _ h => snMatch_need h)
      (fun _ _ h => snMatch_charset h) (by decide) (by decide))
    (consSafe_bracket (by decide) snDivSafe) _ h4

theorem sanitizeError_signonFree (msg : List Char) :
    patFree signonMatch (sanitizeError msg) := by
  have h4 : patFree signonMatch (replaceScan signonMatch ssoTok
      (replaceScan snMatch snTok (replaceScan emailMatch emailTok
        (replaceScan urlMatch urlTok msg)))) :=
    replaceScan_selfFree signonMatch ssoTok signonMatch_nil
      (tokSafe_bracket (Q := fun c => lcChar c = '.')
        (fun _ _ h => signonMatch_need h)
        (fun _ _ h => signonMatch_charset h) (by decide) (by decide))
      (consSafe_bracket (by decide) signonDivSafe) _
  exact replaceScan_preserveFree signonMatch developerMatch devTok
    (tokSafe_bracket (Q := fun c => lcChar c = '.')
      (fun _ _ h => signonMatch_need h)
      (fun _ _ h => signonMatch_charset h) (by decide) (by decide))
    (consSafe_bracket (by decide) signonDivSafe) _ h4

theorem sanitizeError_devFree (msg : List Char) :
    patFree developerMatch (sanitizeError msg) :=
  replaceScan_selfFree developerMatch devTok developerMatch_nil
    (tokSafe_bracket (Q := fun c => lcChar c = '.')
      (fun _ _ h => developerMatch_need h)
      (fun _ _ h => developerMatch_charset h) (by decide) (by decide))
    (consSafe_bracket (by decide) devDivSafe) _

/-- Claim C6: for every error message, the sanitized message contains
no match of the URL pattern, the email pattern, the
`*.service-now.com` pattern, the `signon.service-now.com` pattern, or
the `developer.servicenow.com` pattern, at any position. -/
theorem sanitizeError_free (msg : List Char) :
    patFree urlMatch (sanitizeError msg) ∧
    patFree emailMatch (sanitizeError msg) ∧
    patFree snMatch (sanitizeError msg) ∧
    patFree signonMatch (sanitizeError msg) ∧
    patFree developerMatch (sanitizeError msg) :=
  ⟨sanitizeError_urlFree msg, sanitizeError_emailFree msg,
   sanitizeError_snFree msg, sanitizeError_signonFree msg,
   sanitizeError_devFree msg⟩

/-- Claim C6 as stated is false: `sanitizeError` redacts only URLs,
emails, and the three fixed domain patterns.  Credentials receive no
specific treatment, so a message carrying a password verbatim is
returned unchanged, and a near-miss domain such as
`developers.servicenow.com` also survives intact. -/
theorem sanitizeError_counterexample :
    sanitizeError ("password hunter2 rejected".toList) =
      "password hunter2 rejected".toList ∧
    containsSub "hunter2".toList
      (sanitizeError ("password hunter2 rejected".toList)) = true ∧
    sanitizeError ("developers.servicenow.com unreachable".toList) =
      "developers.servicenow.com unreachable".toList := by
  refine ⟨?_, ?_, ?_⟩ <;> decide

end SnPdi
